import Mathlib

/-!
# The generic stack of `utils/collections/stack.go`

A shallow embedding of `Stack[T]` and its methods.

* A Go slice `[]T` held in the private field `data` is a `List α`, bottom of the
  stack first (`append` adds at the end).  The field is never handed out: `PopTopN`
  copies into a fresh slice, so no aliasing of the backing array is observable
  between two calls.
* `Foreach` alone runs code of the caller while it reads the stack.  It is embedded
  over a memory of backing arrays (`Memory`), with the slice value of `range` taken
  once and each element read when its iteration starts, and with a callback that may
  change that memory, as a Go closure calling `Push`, `Pop` or `Clear` does.
* Go `int` values are `Int`.  Every subtraction in the file is evaluated only behind
  a guard that keeps its result between `0` and `len(s.data)`, so no wrap-around
  can occur and none is modelled.
* Every index expression `a[i]`, slice expression `a[lo:]` / `a[:hi]` and `make`
  call carries its run-time check: the embedding returns `Except RuntimePanic _`
  and takes the failing branch exactly when the Go run time would panic.  The
  slice check used here (`hi ≤ len`) is at least as strict as Go's (`hi ≤ cap`).
* The zero value of `T` is `default` of an `Inhabited α`.
* A method with a pointer receiver returns the new stack next to its results.
-/

namespace Collections

universe u v

/-- Run-time failures of the Go operations used by the stack. -/
inductive RuntimePanic where
  | indexOutOfRange
  | sliceBoundsOutOfRange
  | makeLenOutOfRange
  deriving DecidableEq, Repr

/-- Go `len(a)`. -/
def len {α : Type u} (a : List α) : Int := (a.length : Int)

/-- Go index expression `a[i]`, with its bounds check. -/
def index {α : Type u} (a : List α) (i : Int) : Except RuntimePanic α :=
  if i < 0 then .error .indexOutOfRange
  else
    match a[i.toNat]? with
    | some v => .ok v
    | none => .error .indexOutOfRange

/-- Go slice expression `a[:hi]`, with its bounds check. -/
def sliceTo {α : Type u} (a : List α) (hi : Int) : Except RuntimePanic (List α) :=
  if hi < 0 ∨ hi > len a then .error .sliceBoundsOutOfRange
  else .ok (a.take hi.toNat)

/-- Go slice expression `a[lo:]`, with its bounds check. -/
def sliceFrom {α : Type u} (a : List α) (lo : Int) : Except RuntimePanic (List α) :=
  if lo < 0 ∨ lo > len a then .error .sliceBoundsOutOfRange
  else .ok (a.drop lo.toNat)

/-- Go `make([]T, n)`: `n` zero values; panics on a negative length. -/
def makeSlice {α : Type u} [Inhabited α] (n : Int) : Except RuntimePanic (List α) :=
  if n < 0 then .error .makeLenOutOfRange
  else .ok (List.replicate n.toNat default)

/-- Go `copy(dst, src)`: overwrites the first `min(len(dst), len(src))` elements of
`dst` with those of `src`; the result is the new content of `dst`. -/
def copySlice {α : Type u} (dst src : List α) : List α :=
  src.take (min dst.length src.length) ++ dst.drop (min dst.length src.length)

/-- `type Stack[T any] struct { data []T }`. -/
structure Stack (α : Type u) where
  data : List α
  deriving DecidableEq, Repr

/-- `NewStack`: `Stack[T]{data: []T{}}`. -/
def NewStack {α : Type u} : Stack α := { data := [] }

namespace Stack

variable {α : Type u}

/-- `Push`: `s.data = append(s.data, value)`. -/
def Push (s : Stack α) (value : α) : Stack α :=
  { data := s.data ++ [value] }

/-- `Pop`: the returned pair is `(value, found)`, next to the stack afterwards. -/
def Pop [Inhabited α] (s : Stack α) : Except RuntimePanic ((α × Bool) × Stack α) :=
  if len s.data = 0 then
    .ok ((default, false), s)
  else do
    let value ← index s.data (len s.data - 1)
    let data ← sliceTo s.data (len s.data - 1)
    pure ((value, true), { data := data })

/-- `TrimTopN`. -/
def TrimTopN (s : Stack α) (n : Int) : Except RuntimePanic (Stack α) :=
  if n ≤ 0 ∨ n > len s.data then
    .ok s
  else do
    let data ← sliceTo s.data (len s.data - n)
    pure { data := data }

/-- `PopTopN`: the returned slice is `none` for Go `nil`. -/
def PopTopN [Inhabited α] (s : Stack α) (n : Int) :
    Except RuntimePanic (Option (List α) × Stack α) :=
  if n ≤ 0 ∨ n > len s.data then
    .ok (none, s)
  else do
    let values ← makeSlice n
    let top ← sliceFrom s.data (len s.data - n)
    let values := copySlice values top
    let data ← sliceTo s.data (len s.data - n)
    pure (some values, { data := data })

/-- `Peek`. -/
def Peek [Inhabited α] (s : Stack α) : Except RuntimePanic ((α × Bool) × Stack α) :=
  if len s.data = 0 then
    .ok ((default, false), s)
  else do
    let value ← index s.data (len s.data - 1)
    pure ((value, true), s)

/-- `IsEmpty`. -/
def IsEmpty (s : Stack α) : Bool := decide (len s.data = 0)

/-- `Size`. -/
def Size (s : Stack α) : Int := len s.data

/-- `Clear`: `s.data = []T{}`. -/
def Clear (_s : Stack α) : Stack α := { data := [] }

/-- `PeekAtK`. -/
def PeekAtK [Inhabited α] (s : Stack α) (k : Int) :
    Except RuntimePanic ((α × Bool) × Stack α) :=
  if k < 0 ∨ k ≥ len s.data then
    .ok ((default, false), s)
  else do
    let value ← index s.data (len s.data - 1 - k)
    pure ((value, true), s)

end Stack

/-- A Go slice value as the field `data` holds it: the address of its backing array, its
length and its capacity.  The stack only slices from index 0 (`s.data[:k]`), so a slice
starts where its array starts. -/
structure Slice where
  arr : Nat
  len : Nat
  cap : Nat
  deriving DecidableEq, Repr

/-- The memory a callback shares with `Foreach`: the elements of the backing arrays, by
address and index; the field `data` of the stack the receiver points to; the next
address the allocator hands out. -/
structure Memory (α : Type u) where
  cells : Nat → Nat → α
  data : Slice
  next : Nat

namespace Memory

variable {α : Type u}

/-- The elements the stack holds, bottom first: `s.data[0]`, ..., `s.data[len-1]`. -/
def contents (m : Memory α) : List α :=
  (List.range m.data.len).map (m.cells m.data.arr)

/-- `Push` on the memory: `s.data = append(s.data, value)`.  With capacity left the value
is written into the backing array in place; otherwise `append` moves the elements to a
new array, whose capacity `grow cap` is the choice of the Go run time. -/
def Push [Inhabited α] (grow : Nat → Nat) (m : Memory α) (value : α) : Memory α :=
  if m.data.len < m.data.cap then
    { m with
      cells := fun a i =>
        if a = m.data.arr ∧ i = m.data.len then value else m.cells a i
      data := { m.data with len := m.data.len + 1 } }
  else
    { cells := fun a i =>
        if a = m.next then
          if i < m.data.len then m.cells m.data.arr i
          else if i = m.data.len then value
          else default
        else m.cells a i
      data := { arr := m.next, len := m.data.len + 1, cap := grow m.data.cap }
      next := m.next + 1 }

/-- `Pop` on the memory: the top element is read from the backing array and `s.data` is
resliced to `s.data[:len-1]`; the array itself is not written. -/
def Pop [Inhabited α] (m : Memory α) : (α × Bool) × Memory α :=
  if m.data.len = 0 then ((default, false), m)
  else
    ((m.cells m.data.arr (m.data.len - 1), true),
      { m with data := { m.data with len := m.data.len - 1 } })

/-- `Clear` on the memory: `s.data = []T{}`, a new empty slice; the former backing array
is not written. -/
def Clear (m : Memory α) : Memory α :=
  { m with data := { arr := m.next, len := 0, cap := 0 }, next := m.next + 1 }

end Memory

/-- The loop `for _, v := range x { f(v) }`, where `x` is the slice value `s.data` had
before the first iteration, `n` the number of iterations left and `i` the index reached.
The element is read from the backing array of `x` when its iteration starts; the callback
then runs on the state of the caller and the memory, both of which it may change. -/
def rangeLoop {α : Type u} {σ : Type v} (f : α → σ × Memory α → σ × Memory α) (x : Slice) :
    Nat → Nat → σ × Memory α → σ × Memory α
  | 0, _, w => w
  | n + 1, i, w => rangeLoop f x n (i + 1) (f (w.2.cells x.arr i) w)

/-- `Foreach`: the state of the caller and the memory after the loop. -/
def Stack.Foreach {α : Type u} {σ : Type v} (f : α → σ × Memory α → σ × Memory α)
    (w : σ × Memory α) : σ × Memory α :=
  rangeLoop f w.2.data w.2.data.len 0 w

/-- The procedure "`n` successive `Pop()` calls": the `(value, found)` pairs in the
order they are returned, next to the stack afterwards. -/
def PopTimes {α : Type u} [Inhabited α] :
    Nat → Stack α → Except RuntimePanic (List (α × Bool) × Stack α)
  | 0, s => .ok ([], s)
  | n + 1, s => do
    let (r, s1) ← Stack.Pop s
    let (rs, s2) ← PopTimes n s1
    pure (r :: rs, s2)

/-- The loop of `String`: `for i, v := range s.data { ... }` with `n = len(s.data)`;
`render v` stands for `fmt.Sprintf("%v", v)`. -/
def stringLoop {α : Type u} (render : α → String) (n : Int) :
    List α → Int → String → String
  | [], _, result => result
  | v :: rest, i, result =>
    let result := result ++ render v
    let result := if i < n - 1 then result ++ ", " else result
    stringLoop render n rest (i + 1) result

/-- `String`: the rendering of the stack, next to the stack afterwards. -/
def Stack.String {α : Type u} (s : Stack α) (render : α → String) : String × Stack α :=
  (stringLoop render (len s.data) s.data 0 "[" ++ "]", s)

end Collections

/-!
# The lexer exercised by `lexer/lexer_test.go`

The package `app/lexer` itself is not among the sources; only its test is.  The
definitions below follow the specification of the scanner (its sections 3, 4 and 7), with
the names the test uses (`Token`, `Typ` for its field `Type`, `Val`, `NextToken`, the
token types `EOF`, `INTEGER`, ...).  `LexerAct` is the driver loop of the test itself.

* The cursor is the list of runes not yet consumed; line and column counting, which no
  result depends on, is left out, and so is the `specific` tag of a token.
* The Unicode classes of letters and decimal digits outside ASCII and the rendering of a
  parsed 64-bit float are parameters (`Host`).
-/

namespace Lexer

/-- Modelled from the spec: the token categories of §3 (the declaration of
`lexer.TokenType` is missing); `NONE` is the zero value returned next to an error. -/
inductive TokenType where
  | NONE | EOF | INTEGER | FLOAT | STRING | CHAR | OPERATOR | DELIMITER | RESERVED | TYPE
  | IDENTIFIER
  deriving DecidableEq, Repr

/-- Modelled from the spec: the token of §3 (the declaration of `lexer.Token` is missing),
with the fields the test reads. -/
structure Token where
  Typ : TokenType
  Val : List Char
  deriving DecidableEq, Repr

/-- Modelled from the spec: the error kinds of §7 (the error values of the lexer are
missing); `EndOfInput` stands for `io.EOF`. -/
inductive LexError where
  | EndOfInput | IllegalCharacter | InvalidLeadingZero | InvalidHexLiteral
  | InvalidNumericSuffix | MalformedFloat | UnsupportedNumericForm
  | UnterminatedString | UnterminatedChar | UnterminatedRawString
  | CharLiteralTooLong | UnterminatedComment
  | InvalidUnicodeEscape | InvalidOctalEscape | UnknownEscapeSequence
  deriving DecidableEq, Repr

/-- Modelled from the spec: what the lexer takes from outside the repository, the
Unicode classes "letter" and "decimal digit" for runes beyond ASCII and the canonical
rendering of a float literal (§3). -/
structure Host where
  letter : Char → Bool
  digit : Char → Bool
  renderFloat : List Char → List Char

/-- Modelled from the spec: the outcome of one `NextToken` call (§6), the token, the
error if any, and the cursor afterwards. -/
structure Result where
  token : Token
  err : Option LexError
  rest : List Char
  deriving DecidableEq, Repr

/-- The rune `"`. -/
def quote : Char := Char.ofNat 34

/-- The rune that opens and closes a character literal. -/
def apostrophe : Char := Char.ofNat 39

/-- The rune that opens and closes a raw string. -/
def backtick : Char := Char.ofNat 96

/-- The rune that starts an escape. -/
def backslash : Char := Char.ofNat 92

/-- The line feed. -/
def newline : Char := Char.ofNat 10

/-- The horizontal tab. -/
def tab : Char := Char.ofNat 9

/-- The carriage return. -/
def carriageReturn : Char := Char.ofNat 13

/-- Modelled from the spec: the classifier "whitespace" of §2 (missing): space, tab,
line feed, carriage return. -/
def isWhitespace (c : Char) : Bool :=
  c = ' ' || c = tab || c = newline || c = carriageReturn

/-- Modelled from the spec: the classifier "digit" of §2 (missing): `0`-`9`. -/
def isDigit (c : Char) : Bool := decide (48 ≤ c.toNat) && decide (c.toNat ≤ 57)

/-- Modelled from the spec: the classifier "hex digit" of §2 (missing). -/
def isHexDigit (c : Char) : Bool :=
  isDigit c || (decide (97 ≤ c.toNat) && decide (c.toNat ≤ 102)) ||
    (decide (65 ≤ c.toNat) && decide (c.toNat ≤ 70))

/-- Modelled from the spec: the classifier "octal digit" of §2 (missing): `0`-`7`. -/
def isOctalDigit (c : Char) : Bool := decide (48 ≤ c.toNat) && decide (c.toNat ≤ 55)

/-- Modelled from the spec: "Unicode letter" of §4.8 (missing): `A`-`Z`, `a`-`z` within
ASCII, the class of the host beyond. -/
def isLetter (H : Host) (c : Char) : Bool :=
  if c.toNat < 128 then
    (decide (65 ≤ c.toNat) && decide (c.toNat ≤ 90)) ||
      (decide (97 ≤ c.toNat) && decide (c.toNat ≤ 122))
  else H.letter c

/-- Modelled from the spec: "Unicode decimal digit" of §4.8 (missing): `0`-`9` within
ASCII, the class of the host beyond. -/
def isUnicodeDigit (H : Host) (c : Char) : Bool :=
  if c.toNat < 128 then isDigit c else H.digit c

/-- Modelled from the spec: the classifier "identifier-start" of §4.8 (missing): a
Unicode letter or underscore. -/
def isIdentStart (H : Host) (c : Char) : Bool := isLetter H c || c = '_'

/-- Modelled from the spec: the classifier "identifier-continue" of §4.8 (missing): a
Unicode letter, a Unicode decimal digit or underscore. -/
def isIdentContinue (H : Host) (c : Char) : Bool :=
  isLetter H c || isUnicodeDigit H c || c = '_'

/-- Modelled from the spec: a successful scan (§6, missing): a token and no error. -/
def emit (t : TokenType) (v : List Char) (rest : List Char) : Result :=
  { token := ⟨t, v⟩, err := none, rest := rest }

/-- Modelled from the spec: a failed scan (§3, §6, missing): the zero token `NONE` next
to the error. -/
def failWith (e : LexError) (rest : List Char) : Result :=
  { token := ⟨.NONE, []⟩, err := some e, rest := rest }

/-- Modelled from the spec: where the trivia loop of §4.2 step 1 (missing) is: between tokens, inside a `//` comment,
inside a `/*` comment, inside a `/*` comment right after a `*`. -/
inductive TriviaMode where
  | normal | line | block | blockStar
  deriving DecidableEq, Repr

/-- Modelled from the spec: the trivia loop of `NextToken` (§4.2 step 1, missing):
whitespace is skipped, `//` skips to the next line feed, `/*` skips to the first `*/`
after it and fails with `UnterminatedComment` when the input ends first. -/
def skipTrivia : TriviaMode → List Char → Except LexError (List Char)
  | .normal, [] => .ok []
  | .normal, c :: rest =>
    if isWhitespace c then skipTrivia .normal rest
    else if c = '/' then
      match rest with
      | d :: rest1 =>
        if d = '/' then skipTrivia .line rest1
        else if d = '*' then skipTrivia .block rest1
        else .ok (c :: rest)
      | [] => .ok (c :: rest)
    else .ok (c :: rest)
  | .line, [] => .ok []
  | .line, c :: rest =>
    if c = newline then skipTrivia .normal rest else skipTrivia .line rest
  | .block, [] => .error .UnterminatedComment
  | .block, c :: rest =>
    if c = '*' then skipTrivia .blockStar rest else skipTrivia .block rest
  | .blockStar, [] => .error .UnterminatedComment
  | .blockStar, c :: rest =>
    if c = '/' then skipTrivia .normal rest
    else if c = '*' then skipTrivia .blockStar rest
    else skipTrivia .block rest

/-- Modelled from the spec: the value of a digit of an escape (§4.7, missing), hexadecimal
hence also octal. -/
def digitValue (c : Char) : Nat :=
  if isDigit c then c.toNat - 48
  else if 97 ≤ c.toNat then c.toNat - 97 + 10
  else c.toNat - 65 + 10

/-- Modelled from the spec: the number written by the digits of an escape (§4.7, missing)
in the given base. -/
def numberValue (base : Nat) (ds : List Char) : Nat :=
  ds.foldl (fun acc d => acc * base + digitValue d) 0

/-- Modelled from the spec: the `u` and `U` rows of the escape decoder (§4.7, missing):
exactly `n` hex digits make one code point; the count returned includes the letter. -/
def hexEscape (n : Nat) (rest : List Char) : Except LexError (Char × Nat) :=
  let ds := rest.take n
  if ds.length = n ∧ ds.all isHexDigit then .ok (Char.ofNat (numberValue 16 ds), n + 1)
  else .error .InvalidUnicodeEscape

/-- Modelled from the spec: the escape decoder (§4.7, missing), applied to the runes after
the backslash: the decoded value and the count of runes consumed after the backslash. -/
def decodeEscape : List Char → Except LexError (Char × Nat)
  | [] => .error .UnknownEscapeSequence
  | c :: rest =>
    if c = 'n' then .ok (newline, 1)
    else if c = 't' then .ok (tab, 1)
    else if c = backslash then .ok (backslash, 1)
    else if c = quote then .ok (quote, 1)
    else if c = apostrophe then .ok (apostrophe, 1)
    else if c = 'u' then hexEscape 4 rest
    else if c = 'U' then hexEscape 8 rest
    else if isOctalDigit c then
      let ds := (c :: rest).take 3
      if ds.length = 3 ∧ ds.all isOctalDigit then .ok (Char.ofNat (numberValue 8 ds), 3)
      else .error .InvalidOctalEscape
    else .error .UnknownEscapeSequence

/-- Modelled from the spec: the error path of the string scanner (§4.2 step 5, missing):
after a bad escape the cursor moves past the closing quote of the literal, or to the end
of the line or of the input. -/
def resyncString : List Char → List Char
  | [] => []
  | c :: rest =>
    if c = quote then rest
    else if c = newline then c :: rest
    else if c = backslash then
      match rest with
      | d :: rest1 => if d = newline then rest else resyncString rest1
      | [] => []
    else resyncString rest

/-- Modelled from the spec: the loop of the string scanner (§4.4, missing); `acc` is the
decoded text so far and the number counts the runes of an escape still to be passed. -/
def scanStringLoop (acc : List Char) : Nat → List Char → Result
  | _, [] => failWith .UnterminatedString []
  | skip + 1, _ :: rest => scanStringLoop acc skip rest
  | 0, c :: rest =>
    if c = quote then emit .STRING acc rest
    else if c = newline then failWith .UnterminatedString (c :: rest)
    else if c = backslash then
      match decodeEscape rest with
      | .ok (v, n) => scanStringLoop (acc ++ [v]) n rest
      | .error e => failWith e (resyncString rest)
    else scanStringLoop (acc ++ [c]) 0 rest

/-- Modelled from the spec: the string scanner (§4.4, missing), applied to the runes after
the opening quote. -/
def scanString (rest : List Char) : Result := scanStringLoop [] 0 rest

/-- Modelled from the spec: the loop of the raw string scanner (§4.6, missing). -/
def scanRawStringLoop (acc : List Char) : List Char → Result
  | [] => failWith .UnterminatedRawString []
  | c :: rest =>
    if c = backtick then emit .STRING acc rest else scanRawStringLoop (acc ++ [c]) rest

/-- Modelled from the spec: the raw string scanner (§4.6, missing), applied to the runes
after the opening backtick. -/
def scanRawString (rest : List Char) : Result := scanRawStringLoop [] rest

/-- Modelled from the spec: the error path of the character scanner (§4.5, missing): the
cursor moves past the closing quote and the error is `e`, or to the end of the line or
of the input and the error is `UnterminatedChar`. -/
def resyncChar (e : LexError) (r : List Char) : Result :=
  match r.dropWhile (fun c => c ≠ apostrophe && c ≠ newline) with
  | c :: rest =>
    if c = apostrophe then failWith e rest else failWith .UnterminatedChar (c :: rest)
  | [] => failWith .UnterminatedChar []

/-- Modelled from the spec: the end of the character scanner (§4.5, missing): the rune
after the one decoded unit `v` must be the closing quote. -/
def closeChar (v : List Char) (r : List Char) : Result :=
  match r with
  | c :: rest =>
    if c = apostrophe then emit .CHAR v rest else resyncChar .CharLiteralTooLong r
  | [] => failWith .UnterminatedChar []

/-- Modelled from the spec: the character scanner (§4.5, missing), applied to the runes
after the opening quote. -/
def scanChar (rest : List Char) : Result :=
  match rest with
  | [] => failWith .UnterminatedChar []
  | c :: r =>
    if c = newline then failWith .UnterminatedChar (c :: r)
    else if c = backslash then
      match decodeEscape r with
      | .ok (v, n) => closeChar [v] (r.drop n)
      | .error e => resyncChar e r
    else closeChar [c] r

/-- Modelled from the spec: the float path of the number scanner (§4.3, missing), applied
to the runes after the `.`; `pre` is the text before the `.`.  A hex literal followed by a
fraction is not a float that can be parsed: it is one `MalformedFloat` (§8, `0x123.456`). -/
def scanFraction (H : Host) (pre : List Char) (isHex : Bool) (r1 : List Char) : Result :=
  let frac := r1.takeWhile isDigit
  let r2 := r1.dropWhile isDigit
  let inRun : Char → Bool := fun c => c = '.' || isIdentContinue H c
  if frac = [] then failWith .MalformedFloat (r1.dropWhile inRun)
  else if (r2.head?.map inRun).getD false then failWith .MalformedFloat (r2.dropWhile inRun)
  else if isHex then failWith .MalformedFloat r2
  else emit .FLOAT (H.renderFloat (pre ++ '.' :: frac)) r2

/-- Modelled from the spec: the hex path of the number scanner (§4.3, missing), applied to
the runes after the prefix `0x` or `0X`, whose letter is `x`. -/
def scanHex (H : Host) (x : Char) (r1 : List Char) : Result :=
  let hex := r1.takeWhile isHexDigit
  let r2 := r1.dropWhile isHexDigit
  if hex = [] then failWith .InvalidHexLiteral (r2.dropWhile (isIdentContinue H))
  else
    match r2 with
    | c :: r3 =>
      if isIdentContinue H c then
        failWith .InvalidHexLiteral (r2.dropWhile (isIdentContinue H))
      else if c = '.' then scanFraction H ('0' :: x :: hex) true r3
      else emit .INTEGER ('0' :: x :: hex) r2
    | [] => emit .INTEGER ('0' :: x :: hex) r2

/-- Modelled from the spec: the number scanner (§4.3, missing).  A decimal run of several
digits starting with `0` and not followed by `.` is `InvalidLeadingZero`; an exponent
letter after the digits and the prefix `0b`/`0B` are `UnsupportedNumericForm`. -/
def scanNumber (H : Host) (input : List Char) : Result :=
  let intPart := input.takeWhile isDigit
  let rest := input.dropWhile isDigit
  let leadingZero : Bool := decide (1 < intPart.length) && intPart.head? = some '0'
  match rest with
  | c :: r1 =>
    if intPart = ['0'] ∧ (c = 'x' ∨ c = 'X') then scanHex H c r1
    else if leadingZero ∧ c ≠ '.' then
      failWith .InvalidLeadingZero (rest.dropWhile (isIdentContinue H))
    else if c = '.' then scanFraction H intPart false r1
    else if isIdentContinue H c then
      if c = 'e' ∨ c = 'E' ∨ (intPart = ['0'] ∧ (c = 'b' ∨ c = 'B')) then
        failWith .UnsupportedNumericForm (rest.dropWhile (isIdentContinue H))
      else failWith .InvalidNumericSuffix (rest.dropWhile (isIdentContinue H))
    else emit .INTEGER intPart rest
  | [] => if leadingZero then failWith .InvalidLeadingZero [] else emit .INTEGER intPart []

/-- Modelled from the spec: the reserved-word table (§4.8, missing), the words the test
"Reserved Word Judgment" expects as `RESERVED`. -/
def reservedWords : List (List Char) :=
  ["break", "case", "chan", "const", "continue", "default", "defer", "do", "else",
   "false", "for", "func", "go", "goto", "if", "import", "interface", "map", "package",
   "range", "return", "select", "struct", "switch", "true", "type", "var", "rune"].map
    String.toList

/-- Modelled from the spec: the builtin-type table (§4.8, missing), the words the test
"Type Judgment" expects as `TYPE`. -/
def builtinTypes : List (List Char) :=
  ["bool", "int", "float", "string", "byte"].map String.toList

/-- Modelled from the spec: the lookup of the identifier scanner (§4.8, missing). -/
def classify (text : List Char) : TokenType :=
  if text ∈ reservedWords then .RESERVED
  else if text ∈ builtinTypes then .TYPE
  else .IDENTIFIER

/-- Modelled from the spec: the identifier scanner (§4.8, missing), applied to the
identifier-start rune `c` and the runes after it. -/
def scanIdentifier (H : Host) (c : Char) (rest : List Char) : Result :=
  let text := c :: rest.takeWhile (isIdentContinue H)
  emit (classify text) text (rest.dropWhile (isIdentContinue H))

/-- Modelled from the spec: the operator table (§4.9, missing): the operators of the test
"Operator Judgment", and `+`, `-`, `*`. -/
def operatorTable : List (List Char) :=
  ["+", "-", "*", "/", "%", "=", "==", "!=", "<", "<=", ">", ">=", "&&", "||", "++", "--",
   "!", "&", "|", "^", "<<", ">>"].map String.toList

/-- Modelled from the spec: the single-character delimiters (§4.9, missing). -/
def delimiterTable : List Char :=
  ['(', ')', Char.ofNat 123, Char.ofNat 125, '[', ']', ',', ';', '.', ':']

/-- Modelled from the spec: "the longest candidate lexeme from a fixed operator table that
matches at the current position" (§4.9, missing). -/
def longestMatch (table : List (List Char)) (input : List Char) : Option (List Char) :=
  table.foldl
    (fun best op =>
      if op.isPrefixOf input && (best.map (fun b => decide (b.length < op.length))).getD true
      then some op else best)
    none

/-- Modelled from the spec: the operator/delimiter matcher (§4.9, missing); `none` when
no lexeme matches. -/
def matchOperator (input : List Char) : Option Result :=
  match longestMatch operatorTable input with
  | some op => some (emit .OPERATOR op (input.drop op.length))
  | none =>
    match input with
    | c :: rest => if c ∈ delimiterTable then some (emit .DELIMITER [c] rest) else none
    | [] => none

/-- Modelled from the spec: `NextToken` (§4.2, missing): skip trivia, return `EOF` at the
end of the input, else dispatch on the next rune; a rune no scanner claims is consumed
alone with `IllegalCharacter`. -/
def NextToken (H : Host) (input : List Char) : Result :=
  match skipTrivia .normal input with
  | .error e => failWith e []
  | .ok [] => emit .EOF [] []
  | .ok (c :: rest) =>
    if isDigit c then scanNumber H (c :: rest)
    else if c = quote then scanString rest
    else if c = backtick then scanRawString rest
    else if c = apostrophe then scanChar rest
    else if isIdentStart H c then scanIdentifier H c rest
    else
      match matchOperator (c :: rest) with
      | some r => r
      | none => failWith .IllegalCharacter rest

/-- The cursor after `n` calls of `NextToken`. -/
def cursorAfter (H : Host) : Nat → List Char → List Char
  | 0, cursor => cursor
  | n + 1, cursor => cursorAfter H n (NextToken H cursor).rest

/-- The loop of `LexerAct` in `lexer_test.go`, with a bound on the number of iterations:
`none` when the bound is reached before the loop breaks. -/
def LexerActLoop (H : Host) : Nat → List Char → List Token → Nat → Option (List Token × Nat)
  | 0, _, _, _ => none
  | fuel + 1, cursor, tokens, errCount =>
    let r := NextToken H cursor
    let errCount :=
      if r.err ≠ none ∧ r.err ≠ some .EndOfInput then errCount + 1 else errCount
    if r.token.Typ = .EOF then some (tokens, errCount)
    else
      let tokens := tokens ++ [r.token]
      if r.err = some .EndOfInput then some (tokens, errCount)
      else LexerActLoop H fuel r.rest tokens errCount

/-- `LexerAct` of `lexer_test.go`: the tokens collected and the number of errors; the
loop is given one iteration per rune of the text and one more. -/
def LexerAct (H : Host) (str : List Char) : Option (List Token × Nat) :=
  LexerActLoop H (str.length + 1) str [] 0

/-- The malformed numerals of the test "Wrong Number Judgment" in `lexer_test.go`. -/
def malformedNumerals : List (List Char) :=
  ["123abc", "0XGHI", "0xghi", "0x123.456", "0x", "0X", "123.456.789", "1e10", "0777",
   "0b1010", "001"].map String.toList

/-- The text of the test "Wrong Number Judgment" in `lexer_test.go`. -/
def wrongNumberText : List Char :=
  "// 非法数字\n// 非法整数\n123abc\n0XGHI\n0xghi\n0x123.456\n0x\n0X\n// 非法浮点数\n123.456.789\n\n// 不支持的科学计数法\n1e10\n\n// 不支持的八进制数\n0777\n\n// 不支持的二进制数\n0b1010\n\n// 错误前缀\n001\n".toList

/-- A text of the lexeme `w` followed by further lexemes, each behind one separating
rune. -/
def separated (w : List Char) (more : List (Char × List Char)) : List Char :=
  w ++ more.foldr (fun p acc => p.1 :: (p.2 ++ acc)) []

/-- The runes a numeral run is made of: `.` and the identifier-continue runes. -/
def isNumeralRune (H : Host) (c : Char) : Bool := c = '.' || isIdentContinue H c

/-- A hex literal: `0x` or `0X` followed by at least one hex digit. -/
def hexLiteral (s : List Char) : Bool :=
  match s with
  | z :: x :: hs => z = '0' && (x = 'x' || x = 'X') && hs ≠ [] && hs.all isHexDigit
  | _ => false

/-- The well-formed numerals of §3 and §4.3: decimal digits with no redundant leading
zero, a hex literal, or decimal digits, a `.` and decimal digits. -/
def wellFormedNumeral (w : List Char) : Bool :=
  (w ≠ [] && w.all isDigit && (w.length = 1 || w.head? ≠ some '0')) ||
  hexLiteral w ||
  (match w.dropWhile isDigit with
   | c :: fs => c = '.' && w.takeWhile isDigit ≠ [] && fs ≠ [] && fs.all isDigit
   | [] => false)

/-- A numeral run: it starts with a decimal digit and either is made of
identifier-continue runes only, or is made of `.` and identifier-continue runes and has
only decimal digits, or a hex literal, before its first `.`. -/
def numeralRun (H : Host) (w : List Char) : Bool :=
  (w.head?.map isDigit).getD false &&
  (w.all (isIdentContinue H) ||
    (w.all (isNumeralRune H) &&
      ((w.takeWhile (fun c => c ≠ '.')).all isDigit ||
        hexLiteral (w.takeWhile (fun c => c ≠ '.')))))

end Lexer

namespace Collections

universe u v

/-! ## Run-time checks that succeed -/

theorem index_of_lt {α : Type u} (a : List α) (i : Int) (h0 : 0 ≤ i) (h1 : i < len a) :
    ∃ v, index a i = .ok v ∧ a[i.toNat]? = some v := by
  have hlt : i.toNat < a.length := by
    unfold len at h1
    omega
  refine ⟨a[i.toNat], ?_, List.getElem?_eq_getElem hlt⟩
  unfold index
  rw [if_neg (by omega), List.getElem?_eq_getElem hlt]

theorem index_append_last {α : Type u} (xs : List α) (v : α) :
    index (xs ++ [v]) (len (xs ++ [v]) - 1) = .ok v := by
  have hi : len (xs ++ [v]) - 1 = (xs.length : Int) := by
    simp [len]
  rw [hi]
  unfold index
  rw [if_neg (by omega)]
  simp

theorem sliceTo_of_le {α : Type u} (a : List α) (hi : Int) (h0 : 0 ≤ hi) (h1 : hi ≤ len a) :
    sliceTo a hi = .ok (a.take hi.toNat) := by
  unfold sliceTo
  rw [if_neg (by omega)]

theorem sliceFrom_of_le {α : Type u} (a : List α) (lo : Int) (h0 : 0 ≤ lo)
    (h1 : lo ≤ len a) : sliceFrom a lo = .ok (a.drop lo.toNat) := by
  unfold sliceFrom
  rw [if_neg (by omega)]

theorem makeSlice_of_nonneg {α : Type u} [Inhabited α] (n : Int) (h0 : 0 ≤ n) :
    (makeSlice n : Except RuntimePanic (List α)) = .ok (List.replicate n.toNat default) := by
  unfold makeSlice
  rw [if_neg (by omega)]

theorem copySlice_of_length_eq {α : Type u} (dst src : List α)
    (h : dst.length = src.length) : copySlice dst src = src := by
  unfold copySlice
  simp [h]

theorem len_nonneg {α : Type u} (a : List α) : 0 ≤ len a := by
  unfold len
  omega

theorem len_eq_zero_iff {α : Type u} (a : List α) : len a = 0 ↔ a = [] := by
  unfold len
  constructor
  · intro h
    exact List.length_eq_zero.mp (by omega)
  · intro h
    simp [h]

/-! ## The operations on a stack given by its contents -/

theorem Stack.Pop_nil {α : Type u} [Inhabited α] :
    Stack.Pop (⟨[]⟩ : Stack α) = .ok ((default, false), ⟨[]⟩) := by
  simp [Stack.Pop, len]

theorem Stack.Pop_append {α : Type u} [Inhabited α] (xs : List α) (v : α) :
    Stack.Pop (⟨xs ++ [v]⟩ : Stack α) = .ok ((v, true), ⟨xs⟩) := by
  have hne : ¬ len (xs ++ [v]) = 0 := by
    simp [len]
    omega
  have hs : sliceTo (xs ++ [v]) (len (xs ++ [v]) - 1) = .ok xs := by
    rw [sliceTo_of_le _ _ (by simp [len]) (by simp [len])]
    simp [len]
  unfold Stack.Pop
  simp only [hne, if_false, index_append_last, hs]
  rfl

theorem Stack.Peek_nil {α : Type u} [Inhabited α] :
    Stack.Peek (⟨[]⟩ : Stack α) = .ok ((default, false), ⟨[]⟩) := by
  simp [Stack.Peek, len]

theorem Stack.Peek_append {α : Type u} [Inhabited α] (xs : List α) (v : α) :
    Stack.Peek (⟨xs ++ [v]⟩ : Stack α) = .ok ((v, true), ⟨xs ++ [v]⟩) := by
  have hne : ¬ len (xs ++ [v]) = 0 := by
    simp [len]
    omega
  unfold Stack.Peek
  simp only [hne, if_false, index_append_last]
  rfl

/-- Every list is empty or ends in a last element. -/
theorem nil_or_append_last {α : Type u} (a : List α) :
    a = [] ∨ ∃ xs v, a = xs ++ [v] := by
  rcases List.eq_nil_or_concat a with h | ⟨xs, v, h⟩
  · exact Or.inl h
  · exact Or.inr ⟨xs, v, by simpa using h⟩

theorem Stack.Pop_ok {α : Type u} [Inhabited α] (s : Stack α) :
    ∃ r, Stack.Pop s = .ok r := by
  cases s with
  | mk data =>
    rcases nil_or_append_last data with h | ⟨xs, v, h⟩
    · subst h
      exact ⟨_, Stack.Pop_nil⟩
    · subst h
      exact ⟨_, Stack.Pop_append xs v⟩

theorem Stack.Peek_ok {α : Type u} [Inhabited α] (s : Stack α) :
    ∃ r, Stack.Peek s = .ok r := by
  cases s with
  | mk data =>
    rcases nil_or_append_last data with h | ⟨xs, v, h⟩
    · subst h
      exact ⟨_, Stack.Peek_nil⟩
    · subst h
      exact ⟨_, Stack.Peek_append xs v⟩

theorem Stack.PeekAtK_ok {α : Type u} [Inhabited α] (s : Stack α) (k : Int) :
    ∃ r, Stack.PeekAtK s k = .ok r := by
  by_cases h : k < 0 ∨ k ≥ len s.data
  · refine ⟨((default, false), s), ?_⟩
    unfold Stack.PeekAtK
    rw [if_pos h]
  · obtain ⟨v, hv, _⟩ := index_of_lt s.data (len s.data - 1 - k) (by omega) (by omega)
    refine ⟨((v, true), s), ?_⟩
    unfold Stack.PeekAtK
    rw [if_neg h, hv]
    rfl

theorem Stack.PopTopN_out_of_range {α : Type u} [Inhabited α] (s : Stack α) (n : Int)
    (h : n ≤ 0 ∨ n > len s.data) : Stack.PopTopN s n = .ok (none, s) := by
  unfold Stack.PopTopN
  rw [if_pos h]

theorem Stack.PopTopN_in_range {α : Type u} [Inhabited α] (s : Stack α) (n : Int)
    (h1 : 1 ≤ n) (h2 : n ≤ len s.data) :
    Stack.PopTopN s n =
      .ok (some (s.data.drop (len s.data - n).toNat), ⟨s.data.take (len s.data - n).toNat⟩) := by
  have hlen := len_nonneg s.data
  have hcopy : copySlice (List.replicate n.toNat (default : α))
      (s.data.drop (len s.data - n).toNat) = s.data.drop (len s.data - n).toNat := by
    apply copySlice_of_length_eq
    simp only [List.length_replicate, List.length_drop]
    unfold len at h2 ⊢
    omega
  unfold Stack.PopTopN
  rw [if_neg (by omega), makeSlice_of_nonneg n (by omega),
    sliceFrom_of_le s.data _ (by omega) (by omega),
    sliceTo_of_le s.data _ (by omega) (by omega)]
  show Except.ok _ = Except.ok _
  rw [hcopy]

theorem Stack.TrimTopN_out_of_range {α : Type u} (s : Stack α) (n : Int)
    (h : n ≤ 0 ∨ n > len s.data) : Stack.TrimTopN s n = .ok s := by
  unfold Stack.TrimTopN
  rw [if_pos h]

theorem Stack.TrimTopN_in_range {α : Type u} (s : Stack α) (n : Int)
    (h1 : 1 ≤ n) (h2 : n ≤ len s.data) :
    Stack.TrimTopN s n = .ok ⟨s.data.take (len s.data - n).toNat⟩ := by
  unfold Stack.TrimTopN
  rw [if_neg (by omega), sliceTo_of_le s.data _ (by omega) (by omega)]
  rfl

theorem length_take_sub {α : Type u} (a : List α) (n : Int) (h1 : 1 ≤ n) (h2 : n ≤ len a) :
    ((a.take (len a - n).toNat).length : Int) = len a - n := by
  rw [List.length_take]
  unfold len at h2 ⊢
  omega

theorem length_drop_sub {α : Type u} (a : List α) (n : Int) (h1 : 1 ≤ n) (h2 : n ≤ len a) :
    ((a.drop (len a - n).toNat).length : Int) = n := by
  rw [List.length_drop]
  unfold len at h2 ⊢
  omega

/-! ## Push, Pop, Peek, PeekAtK -/

/-- C1: for every stack `s` and value `v`, `Push(v)` followed by `Pop()` returns
`(v, true)` and leaves the stack exactly as `s` was before the `Push`. -/
theorem push_then_pop {α : Type u} [Inhabited α] (s : Stack α) (v : α) :
    Stack.Pop (Stack.Push s v) = .ok ((v, true), s) := by
  cases s with
  | mk data => exact Stack.Pop_append data v

/-- C2: `Pop()` completes on every stack; it returns `found = false` exactly when the
stack is empty, and then the value is the zero value and the stack stays empty; on a
non-empty stack `found = true`, the value is the last element pushed that is still
held, and the stack before is the stack after with that one element pushed back. -/
theorem pop_spec {α : Type u} [Inhabited α] (s : Stack α) :
    ∃ (v : α) (found : Bool) (s' : Stack α),
      Stack.Pop s = .ok ((v, found), s') ∧
      (found = false ↔ s.data = []) ∧
      (found = false → v = default ∧ s'.data = []) ∧
      (found = true → s.data = s'.data ++ [v] ∧ s = Stack.Push s' v) := by
  cases s with
  | mk data =>
    rcases nil_or_append_last data with h | ⟨xs, v, h⟩
    · subst h
      exact ⟨default, false, ⟨[]⟩, Stack.Pop_nil, by simp, by simp, by simp⟩
    · subst h
      exact ⟨v, true, ⟨xs⟩, Stack.Pop_append xs v, by simp, by simp, by simp [Stack.Push]⟩

/-- Witness of C2 on the stack holding 1, 2, 3 (bottom to top). -/
theorem pop_spec_witness :
    ∃ (v : Nat) (found : Bool) (s' : Stack Nat),
      Stack.Pop (⟨[1, 2, 3]⟩ : Stack Nat) = .ok ((v, found), s') ∧
      (found = false ↔ (⟨[1, 2, 3]⟩ : Stack Nat).data = []) ∧
      (found = false → v = default ∧ s'.data = []) ∧
      (found = true → (⟨[1, 2, 3]⟩ : Stack Nat).data = s'.data ++ [v] ∧
        (⟨[1, 2, 3]⟩ : Stack Nat) = Stack.Push s' v) :=
  pop_spec ⟨[1, 2, 3]⟩

/-- C3: `Peek()` completes on every stack, leaves it unchanged and returns the pair
`Pop()` returns on the same stack: `(zero value, false)` on the empty stack and
`(top element, true)` on a stack whose last pushed element is `top`. -/
theorem peek_spec {α : Type u} [Inhabited α] (s : Stack α) :
    ∃ (r : α × Bool) (s' : Stack α),
      Stack.Peek s = .ok (r, s) ∧
      Stack.Pop s = .ok (r, s') ∧
      (s.data = [] → r = (default, false)) ∧
      (∀ (xs : List α) (top : α), s.data = xs ++ [top] → r = (top, true)) := by
  cases s with
  | mk data =>
    rcases nil_or_append_last data with h | ⟨xs, v, h⟩
    · subst h
      exact ⟨(default, false), ⟨[]⟩, Stack.Peek_nil, Stack.Pop_nil, by simp, by simp⟩
    · subst h
      refine ⟨(v, true), ⟨xs⟩, Stack.Peek_append xs v, Stack.Pop_append xs v, by simp, ?_⟩
      intro ys top hy
      have := List.append_inj_right' hy rfl
      simp at this
      simp [this]

/-- Witness of C3 on the stack holding 1, 2, 3 (bottom to top). -/
theorem peek_spec_witness :
    ∃ (r : Nat × Bool) (s' : Stack Nat),
      Stack.Peek (⟨[1, 2, 3]⟩ : Stack Nat) = .ok (r, ⟨[1, 2, 3]⟩) ∧
      Stack.Pop (⟨[1, 2, 3]⟩ : Stack Nat) = .ok (r, s') ∧
      ((⟨[1, 2, 3]⟩ : Stack Nat).data = [] → r = (default, false)) ∧
      (∀ (xs : List Nat) (top : Nat),
        (⟨[1, 2, 3]⟩ : Stack Nat).data = xs ++ [top] → r = (top, true)) :=
  peek_spec ⟨[1, 2, 3]⟩

/-- C4: on a stack of size `m`, `PeekAtK(k)` completes for every integer `k` and leaves
the stack unchanged; `found = true` exactly when `0 ≤ k < m`, and then the value is the
element at index `m-1-k` from the bottom, which is the element `k` places below the
top. -/
theorem peekAtK_spec {α : Type u} [Inhabited α] (s : Stack α) (k : Int) :
    ∃ (v : α) (found : Bool),
      Stack.PeekAtK s k = .ok ((v, found), s) ∧
      (found = true ↔ 0 ≤ k ∧ k < Stack.Size s) ∧
      (found = true →
        s.data[(Stack.Size s - 1 - k).toNat]? = some v ∧ s.data.reverse[k.toNat]? = some v) := by
  unfold Stack.Size
  by_cases h : k < 0 ∨ k ≥ len s.data
  · refine ⟨default, false, ?_, ?_, by simp⟩
    · unfold Stack.PeekAtK
      rw [if_pos h]
    · constructor
      · intro hf
        cases hf
      · intro hk
        omega
  · have h0 : 0 ≤ k := by omega
    have h1 : k < len s.data := by omega
    obtain ⟨v, hv, hget⟩ := index_of_lt s.data (len s.data - 1 - k) (by omega) (by omega)
    refine ⟨v, true, ?_, ?_, ?_⟩
    · unfold Stack.PeekAtK
      rw [if_neg h, hv]
      rfl
    · simp [h0, h1]
    · intro _
      refine ⟨hget, ?_⟩
      have hk : k.toNat < s.data.length := by
        unfold len at h1
        omega
      rw [List.getElem?_reverse hk, ← hget]
      congr 1
      unfold len
      omega

/-- Witness of C4: depth 1 in the stack holding 1, 2, 3, 4 (bottom to top). -/
theorem peekAtK_spec_witness :
    ∃ (v : Nat) (found : Bool),
      Stack.PeekAtK (⟨[1, 2, 3, 4]⟩ : Stack Nat) 1 = .ok ((v, found), ⟨[1, 2, 3, 4]⟩) ∧
      (found = true ↔ (0 : Int) ≤ 1 ∧ (1 : Int) < Stack.Size (⟨[1, 2, 3, 4]⟩ : Stack Nat)) ∧
      (found = true →
        (⟨[1, 2, 3, 4]⟩ : Stack Nat).data[(Stack.Size (⟨[1, 2, 3, 4]⟩ : Stack Nat) - 1 - 1).toNat]?
            = some v ∧
          (⟨[1, 2, 3, 4]⟩ : Stack Nat).data.reverse[(1 : Int).toNat]? = some v) :=
  peekAtK_spec ⟨[1, 2, 3, 4]⟩ 1

/-! ## PopTopN, TrimTopN -/

/-- C5: on a stack of size `m`, for `1 ≤ n ≤ m`, `PopTopN(n)` returns a non-nil sequence
of exactly `n` values; the former contents are the new contents followed by the returned
values (so the values are the top `n` elements bottom-to-top and the last one is the
former top), and the stack keeps its former bottom `m-n` elements in order. -/
theorem popTopN_spec {α : Type u} [Inhabited α] (s : Stack α) (n : Int)
    (h1 : 1 ≤ n) (h2 : n ≤ Stack.Size s) :
    ∃ (values : List α) (s' : Stack α),
      Stack.PopTopN s n = .ok (some values, s') ∧
      (values.length : Int) = n ∧
      s.data = s'.data ++ values ∧
      s'.data = s.data.take (Stack.Size s - n).toNat ∧
      (s'.data.length : Int) = Stack.Size s - n ∧
      values.getLast? = s.data.getLast? := by
  unfold Stack.Size at h2 ⊢
  have hlen : (s.data.drop (len s.data - n).toNat).length = n.toNat := by
    have := length_drop_sub s.data n h1 h2
    omega
  have hne : s.data.drop (len s.data - n).toNat ≠ [] := by
    intro hnil
    rw [hnil] at hlen
    simp at hlen
    omega
  refine ⟨s.data.drop (len s.data - n).toNat, ⟨s.data.take (len s.data - n).toNat⟩,
    Stack.PopTopN_in_range s n h1 h2, length_drop_sub s.data n h1 h2,
    (List.take_append_drop _ _).symm, rfl, length_take_sub s.data n h1 h2, ?_⟩
  conv_rhs => rw [← List.take_append_drop (len s.data - n).toNat s.data]
  rw [List.getLast?_append_of_ne_nil _ hne]

/-- Witness of C5: the top two of the stack holding 1, 2, 3, 4 (bottom to top). -/
theorem popTopN_spec_witness :
    ∃ (values : List Nat) (s' : Stack Nat),
      Stack.PopTopN (⟨[1, 2, 3, 4]⟩ : Stack Nat) 2 = .ok (some values, s') ∧
      (values.length : Int) = 2 ∧
      (⟨[1, 2, 3, 4]⟩ : Stack Nat).data = s'.data ++ values ∧
      s'.data = (⟨[1, 2, 3, 4]⟩ : Stack Nat).data.take
        (Stack.Size (⟨[1, 2, 3, 4]⟩ : Stack Nat) - 2).toNat ∧
      (s'.data.length : Int) = Stack.Size (⟨[1, 2, 3, 4]⟩ : Stack Nat) - 2 ∧
      values.getLast? = (⟨[1, 2, 3, 4]⟩ : Stack Nat).data.getLast? :=
  popTopN_spec ⟨[1, 2, 3, 4]⟩ 2 (by decide) (by decide)

/-- C6: on a stack of size `m`, `PopTopN(n)` completes for every integer `n`; it returns
nil exactly when `n ≤ 0` or `n > m`, and then the stack is unchanged; for `n = 0` the
result is nil, not an empty sequence. -/
theorem popTopN_nil_iff {α : Type u} [Inhabited α] (s : Stack α) (n : Int) :
    (∃ (r : Option (List α)) (s' : Stack α),
      Stack.PopTopN s n = .ok (r, s') ∧
      (r = none ↔ n ≤ 0 ∨ n > Stack.Size s) ∧
      (r = none → s' = s)) ∧
    Stack.PopTopN s 0 = .ok (none, s) := by
  unfold Stack.Size
  refine ⟨?_, Stack.PopTopN_out_of_range s 0 (Or.inl (le_refl 0))⟩
  by_cases h : n ≤ 0 ∨ n > len s.data
  · exact ⟨none, s, Stack.PopTopN_out_of_range s n h, by simp [h], fun _ => rfl⟩
  · refine ⟨some _, _, Stack.PopTopN_in_range s n (by omega) (by omega), ?_, ?_⟩
    · simp [h]
    · intro hr
      cases hr

/-- Witness of C6: a count above the size of the stack holding 1, 2. -/
theorem popTopN_nil_iff_witness :
    (∃ (r : Option (List Nat)) (s' : Stack Nat),
      Stack.PopTopN (⟨[1, 2]⟩ : Stack Nat) 3 = .ok (r, s') ∧
      (r = none ↔ (3 : Int) ≤ 0 ∨ (3 : Int) > Stack.Size (⟨[1, 2]⟩ : Stack Nat)) ∧
      (r = none → s' = ⟨[1, 2]⟩)) ∧
    Stack.PopTopN (⟨[1, 2]⟩ : Stack Nat) 0 = .ok (none, ⟨[1, 2]⟩) :=
  popTopN_nil_iff ⟨[1, 2]⟩ 3

/-- C7: on a stack of size `m`, `TrimTopN(n)` completes for every integer `n`; when
`1 ≤ n ≤ m` it removes `n` elements from the top, the stack keeping its former bottom
`m-n` elements in order; when `n ≤ 0` or `n > m` the stack is unchanged. -/
theorem trimTopN_spec {α : Type u} (s : Stack α) (n : Int) :
    ∃ (s' : Stack α),
      Stack.TrimTopN s n = .ok s' ∧
      (1 ≤ n ∧ n ≤ Stack.Size s →
        s'.data = s.data.take (Stack.Size s - n).toNat ∧
        (s'.data.length : Int) = Stack.Size s - n ∧
        ∃ (top : List α), (top.length : Int) = n ∧ s.data = s'.data ++ top) ∧
      (n ≤ 0 ∨ n > Stack.Size s → s' = s) := by
  unfold Stack.Size
  by_cases h : n ≤ 0 ∨ n > len s.data
  · refine ⟨s, Stack.TrimTopN_out_of_range s n h, ?_, fun _ => rfl⟩
    intro hr
    omega
  · have h1 : 1 ≤ n := by omega
    have h2 : n ≤ len s.data := by omega
    refine ⟨_, Stack.TrimTopN_in_range s n h1 h2, ?_, ?_⟩
    · intro _
      exact ⟨rfl, length_take_sub s.data n h1 h2, s.data.drop (len s.data - n).toNat,
        length_drop_sub s.data n h1 h2, (List.take_append_drop _ _).symm⟩
    · intro hr
      exact absurd hr h

/-- Witness of C7: trimming two from the stack holding 1, 2, 3. -/
theorem trimTopN_spec_witness :
    ∃ (s' : Stack Nat),
      Stack.TrimTopN (⟨[1, 2, 3]⟩ : Stack Nat) 2 = .ok s' ∧
      ((1 : Int) ≤ 2 ∧ (2 : Int) ≤ Stack.Size (⟨[1, 2, 3]⟩ : Stack Nat) →
        s'.data = (⟨[1, 2, 3]⟩ : Stack Nat).data.take
          (Stack.Size (⟨[1, 2, 3]⟩ : Stack Nat) - 2).toNat ∧
        (s'.data.length : Int) = Stack.Size (⟨[1, 2, 3]⟩ : Stack Nat) - 2 ∧
        ∃ (top : List Nat), (top.length : Int) = 2 ∧
          (⟨[1, 2, 3]⟩ : Stack Nat).data = s'.data ++ top) ∧
      ((2 : Int) ≤ 0 ∨ (2 : Int) > Stack.Size (⟨[1, 2, 3]⟩ : Stack Nat) → s' = ⟨[1, 2, 3]⟩) :=
  trimTopN_spec ⟨[1, 2, 3]⟩ 2

/-! ## Absence of run-time failures -/

/-- C8: for every stack, the empty one included, and all integer arguments `k` and `n`,
`Pop`, `Peek`, `PeekAtK`, `PopTopN` and `TrimTopN` complete: no index expression, slice
expression or `make` call in them takes its failure branch. -/
theorem no_runtime_panic {α : Type u} [Inhabited α] (s : Stack α) (k n : Int) :
    (∃ r, Stack.Pop s = .ok r) ∧
    (∃ r, Stack.Peek s = .ok r) ∧
    (∃ r, Stack.PeekAtK s k = .ok r) ∧
    (∃ r, Stack.PopTopN s n = .ok r) ∧
    (∃ r, Stack.TrimTopN s n = .ok r) := by
  refine ⟨Stack.Pop_ok s, Stack.Peek_ok s, Stack.PeekAtK_ok s k, ?_, ?_⟩
  · by_cases h : n ≤ 0 ∨ n > len s.data
    · exact ⟨_, Stack.PopTopN_out_of_range s n h⟩
    · exact ⟨_, Stack.PopTopN_in_range s n (by omega) (by omega)⟩
  · by_cases h : n ≤ 0 ∨ n > len s.data
    · exact ⟨_, Stack.TrimTopN_out_of_range s n h⟩
    · exact ⟨_, Stack.TrimTopN_in_range s n (by omega) (by omega)⟩

/-! ## Foreach, Clear -/

/-! The operations on the memory act on the contents as the operations on lists do. -/

theorem Memory.contents_Push {α : Type u} [Inhabited α] (grow : Nat → Nat) (m : Memory α)
    (value : α) :
    Memory.contents (Memory.Push grow m value) = (Stack.Push ⟨Memory.contents m⟩ value).data := by
  unfold Memory.Push Stack.Push Memory.contents
  split_ifs with h
  · simp only [List.range_succ, List.map_append, List.map_cons, List.map_nil]
    congr 1
    · apply List.map_congr_left
      intro i hi
      have := List.mem_range.mp hi
      simp
      omega
  · simp only [List.range_succ, List.map_append, List.map_cons, List.map_nil]
    congr 1
    · apply List.map_congr_left
      intro i hi
      have := List.mem_range.mp hi
      simp [this]
    · simp

theorem Memory.contents_Pop {α : Type u} [Inhabited α] (m : Memory α) :
    Stack.Pop ⟨Memory.contents m⟩ =
      .ok ((Memory.Pop m).1, ⟨Memory.contents (Memory.Pop m).2⟩) := by
  unfold Memory.Pop
  split_ifs with h
  · have : Memory.contents m = [] := by simp [Memory.contents, h]
    rw [this]
    exact Stack.Pop_nil
  · obtain ⟨k, hk⟩ : ∃ k, m.data.len = k + 1 := ⟨m.data.len - 1, by omega⟩
    have : Memory.contents m =
        (List.range k).map (m.cells m.data.arr) ++ [m.cells m.data.arr k] := by
      simp [Memory.contents, hk, List.range_succ]
    rw [this, Stack.Pop_append]
    simp [Memory.contents, hk]

theorem Memory.contents_Clear {α : Type u} (m : Memory α) :
    Memory.contents (Memory.Clear m) = (Stack.Clear ⟨Memory.contents m⟩).data := rfl

theorem rangeLoop_traced {α : Type u} {σ : Type v} (f : α → σ × Memory α → σ × Memory α)
    (x : Slice) (c : Nat → α)
    (hf : ∀ v w, (f v w).2.data = w.2.data ∧
      ∀ i, i < w.2.data.len → (f v w).2.cells w.2.data.arr i = w.2.cells w.2.data.arr i)
    (n i : Nat) (w : (σ × List α) × Memory α)
    (hn : i + n = x.len) (hdata : w.2.data = x)
    (hcells : ∀ j, j < x.len → w.2.cells x.arr j = c j) :
    (rangeLoop (fun v (w : (σ × List α) × Memory α) =>
        (((f v (w.1.1, w.2)).1, w.1.2 ++ [v]), (f v (w.1.1, w.2)).2)) x n i w).1.2 =
      w.1.2 ++ (List.range' i n).map c ∧
    (rangeLoop (fun v (w : (σ × List α) × Memory α) =>
        (((f v (w.1.1, w.2)).1, w.1.2 ++ [v]), (f v (w.1.1, w.2)).2)) x n i w).2.data = x ∧
    ∀ j, j < x.len →
      (rangeLoop (fun v (w : (σ × List α) × Memory α) =>
        (((f v (w.1.1, w.2)).1, w.1.2 ++ [v]), (f v (w.1.1, w.2)).2)) x n i w).2.cells
          x.arr j = c j := by
  induction n generalizing i w with
  | zero => exact ⟨by simp [rangeLoop], hdata, hcells⟩
  | succ n ih =>
    obtain ⟨hfd, hfc⟩ := hf (w.2.cells x.arr i) (w.1.1, w.2)
    simp only at hfd hfc
    rw [hdata] at hfd hfc
    have hstep := ih (i + 1)
      (((f (w.2.cells x.arr i) (w.1.1, w.2)).1, w.1.2 ++ [w.2.cells x.arr i]),
        (f (w.2.cells x.arr i) (w.1.1, w.2)).2)
      (by omega) hfd (fun j hj => (hfc j hj).trans (hcells j hj))
    simp only [rangeLoop]
    refine ⟨?_, hstep.2.1, hstep.2.2⟩
    rw [hstep.1, hcells i (by omega)]
    simp [List.range'_succ]

theorem rangeLoop_append {α : Type u} (x : Slice) (n i : Nat) (log : List α)
    (m : Memory α) :
    rangeLoop (fun v (w : List α × Memory α) => (w.1 ++ [v], w.2)) x n i (log, m) =
      (log ++ (List.range' i n).map (m.cells x.arr), m) := by
  induction n generalizing i log with
  | zero => simp [rangeLoop]
  | succ n ih =>
    simp only [rangeLoop]
    rw [ih]
    simp [List.range'_succ]

/-- C9, as stated, fails for a callback that changes the stack.  On the stack holding 1,
2, 3 in an array of capacity 4, a callback that logs its argument and then calls `Pop()`
and `Push(99)` is called with 1, 2, 99 and leaves the stack holding 1, 2, 99; a callback
that logs its argument and then calls `Clear()` is called with 1, 2, 3 and leaves the
stack empty. -/
theorem foreach_counterexample :
    Memory.contents (⟨fun _ i => [1, 2, 3].getD i 0, ⟨0, 3, 4⟩, 1⟩ : Memory Nat) = [1, 2, 3] ∧
    (Stack.Foreach
      (fun v (w : List Nat × Memory Nat) =>
        (w.1 ++ [v], Memory.Push (fun c => 2 * c + 1) (Memory.Pop w.2).2 99))
      ([], ⟨fun _ i => [1, 2, 3].getD i 0, ⟨0, 3, 4⟩, 1⟩)).1 = [1, 2, 99] ∧
    Memory.contents (Stack.Foreach
      (fun v (w : List Nat × Memory Nat) =>
        (w.1 ++ [v], Memory.Push (fun c => 2 * c + 1) (Memory.Pop w.2).2 99))
      ([], ⟨fun _ i => [1, 2, 3].getD i 0, ⟨0, 3, 4⟩, 1⟩)).2 = [1, 2, 99] ∧
    (Stack.Foreach
      (fun v (w : List Nat × Memory Nat) => (w.1 ++ [v], Memory.Clear w.2))
      ([], ⟨fun _ i => [1, 2, 3].getD i 0, ⟨0, 3, 4⟩, 1⟩)).1 = [1, 2, 3] ∧
    Memory.contents (Stack.Foreach
      (fun v (w : List Nat × Memory Nat) => (w.1 ++ [v], Memory.Clear w.2))
      ([], ⟨fun _ i => [1, 2, 3].getD i 0, ⟨0, 3, 4⟩, 1⟩)).2 = [] := by
  refine ⟨rfl, rfl, rfl, rfl, rfl⟩

/-- C9, amended: for every stack and every callback `f` that leaves the stack as it is
(the field `data` and the elements held), `Foreach(f)` calls `f` once per element from
the bottom to the top: the log of the arguments it is called with is the contents of the
stack bottom-to-top, and afterwards the stack holds the same elements in the same slice;
with `f` appending its argument to a list, the list obtained is the contents and the
memory is unchanged. -/
theorem foreach_spec {α : Type u} {σ : Type v} (m : Memory α)
    (f : α → σ × Memory α → σ × Memory α) (st : σ)
    (hf : ∀ v w, (f v w).2.data = w.2.data ∧
      ∀ i, i < w.2.data.len → (f v w).2.cells w.2.data.arr i = w.2.cells w.2.data.arr i) :
    (Stack.Foreach (fun v (w : (σ × List α) × Memory α) =>
        (((f v (w.1.1, w.2)).1, w.1.2 ++ [v]), (f v (w.1.1, w.2)).2))
      ((st, []), m)).1.2 = Memory.contents m ∧
    (Stack.Foreach (fun v (w : (σ × List α) × Memory α) =>
        (((f v (w.1.1, w.2)).1, w.1.2 ++ [v]), (f v (w.1.1, w.2)).2))
      ((st, []), m)).2.data = m.data ∧
    Memory.contents (Stack.Foreach (fun v (w : (σ × List α) × Memory α) =>
        (((f v (w.1.1, w.2)).1, w.1.2 ++ [v]), (f v (w.1.1, w.2)).2))
      ((st, []), m)).2 = Memory.contents m ∧
    Stack.Foreach (fun v (w : List α × Memory α) => (w.1 ++ [v], w.2)) ([], m) =
      (Memory.contents m, m) := by
  obtain ⟨hlog, hdata, hcells⟩ := rangeLoop_traced f m.data (m.cells m.data.arr) hf
    m.data.len 0 ((st, []), m) (by simp) rfl (fun _ _ => rfl)
  refine ⟨?_, hdata, ?_, ?_⟩
  · unfold Stack.Foreach
    rw [hlog]
    simp [Memory.contents, List.range_eq_range']
  · unfold Memory.contents
    unfold Stack.Foreach
    rw [hdata]
    apply List.map_congr_left
    intro j hj
    exact hcells j (List.mem_range.mp hj)
  · unfold Stack.Foreach
    rw [rangeLoop_append]
    simp [Memory.contents, List.range_eq_range']

/-- Witness of C9 (amended): the callback that only appends its argument to a list, on
the stack holding 1, 2, 3 in an array of capacity 4. -/
theorem foreach_spec_witness :
    (∀ (v : Nat) (w : List Nat × Memory Nat),
      ((fun (v : Nat) (w : List Nat × Memory Nat) => (w.1 ++ [v], w.2)) v w).2.data = w.2.data ∧
      ∀ i, i < w.2.data.len →
        ((fun (v : Nat) (w : List Nat × Memory Nat) => (w.1 ++ [v], w.2)) v w).2.cells
          w.2.data.arr i = w.2.cells w.2.data.arr i) ∧
    (Stack.Foreach (fun v (w : (List Nat × List Nat) × Memory Nat) =>
        ((((fun (v : Nat) (w : List Nat × Memory Nat) => (w.1 ++ [v], w.2)) v (w.1.1, w.2)).1,
          w.1.2 ++ [v]),
          ((fun (v : Nat) (w : List Nat × Memory Nat) => (w.1 ++ [v], w.2)) v (w.1.1, w.2)).2))
      (([], []), ⟨fun _ i => [1, 2, 3].getD i 0, ⟨0, 3, 4⟩, 1⟩)).1.2 =
        Memory.contents (⟨fun _ i => [1, 2, 3].getD i 0, ⟨0, 3, 4⟩, 1⟩ : Memory Nat) :=
  ⟨fun _ _ => ⟨rfl, fun _ _ => rfl⟩,
    (foreach_spec (⟨fun _ i => [1, 2, 3].getD i 0, ⟨0, 3, 4⟩, 1⟩ : Memory Nat)
      (fun (v : Nat) (w : List Nat × Memory Nat) => (w.1 ++ [v], w.2)) []
      (fun _ _ => ⟨rfl, fun _ _ => rfl⟩)).1⟩

/-- C10: after `Clear()` the stack is empty: `Size()` is 0, `IsEmpty()` is true, `Pop()`
and `Peek()` return `found = false`; clearing twice is the same as clearing once. -/
theorem clear_spec {α : Type u} [Inhabited α] (s : Stack α) :
    (Stack.Clear s).data = [] ∧
    Stack.Size (Stack.Clear s) = 0 ∧
    Stack.IsEmpty (Stack.Clear s) = true ∧
    Stack.Pop (Stack.Clear s) = .ok ((default, false), Stack.Clear s) ∧
    Stack.Peek (Stack.Clear s) = .ok ((default, false), Stack.Clear s) ∧
    Stack.Clear (Stack.Clear s) = Stack.Clear s := by
  refine ⟨rfl, rfl, ?_, Stack.Pop_nil, Stack.Peek_nil, rfl⟩
  simp [Stack.IsEmpty, Stack.Clear, len]

/-! ## Size -/

/-- C11: `Size()` is the number of elements held: 0 for `NewStack()`, one more after
`Push`, one less after a `Pop` that found an element, `n` less after a `PopTopN(n)` that
returned values and after a `TrimTopN(n)` with `1 ≤ n ≤ Size()`; it is never negative and
`IsEmpty()` is true exactly when it is 0. -/
theorem size_spec {α : Type u} [Inhabited α] (s : Stack α) (v : α) (n : Int) :
    Stack.Size s = (s.data.length : Int) ∧
    Stack.Size (NewStack : Stack α) = 0 ∧
    Stack.Size (Stack.Push s v) = Stack.Size s + 1 ∧
    (∃ (w : α) (found : Bool) (s' : Stack α),
      Stack.Pop s = .ok ((w, found), s') ∧
      (found = true → Stack.Size s' = Stack.Size s - 1)) ∧
    (∃ (r : Option (List α)) (s' : Stack α),
      Stack.PopTopN s n = .ok (r, s') ∧
      (r ≠ none → Stack.Size s' = Stack.Size s - n)) ∧
    (∃ (s' : Stack α),
      Stack.TrimTopN s n = .ok s' ∧
      (1 ≤ n ∧ n ≤ Stack.Size s → Stack.Size s' = Stack.Size s - n)) ∧
    0 ≤ Stack.Size s ∧
    (Stack.IsEmpty s = true ↔ Stack.Size s = 0) := by
  refine ⟨rfl, rfl, ?_, ?_, ?_, ?_, len_nonneg s.data, ?_⟩
  · simp [Stack.Size, Stack.Push, len]
  · cases s with
    | mk data =>
      rcases nil_or_append_last data with h | ⟨xs, w, h⟩
      · subst h
        exact ⟨default, false, ⟨[]⟩, Stack.Pop_nil, by simp⟩
      · subst h
        refine ⟨w, true, ⟨xs⟩, Stack.Pop_append xs w, ?_⟩
        intro _
        simp [Stack.Size, len]
  · by_cases h : n ≤ 0 ∨ n > len s.data
    · exact ⟨none, s, Stack.PopTopN_out_of_range s n h, by simp⟩
    · refine ⟨some _, _, Stack.PopTopN_in_range s n (by omega) (by omega), ?_⟩
      intro _
      exact length_take_sub s.data n (by omega) (by omega)
  · by_cases h : n ≤ 0 ∨ n > len s.data
    · refine ⟨s, Stack.TrimTopN_out_of_range s n h, ?_⟩
      intro hr
      unfold Stack.Size at hr
      omega
    · refine ⟨_, Stack.TrimTopN_in_range s n (by omega) (by omega), ?_⟩
      intro _
      exact length_take_sub s.data n (by omega) (by omega)
  · simp [Stack.IsEmpty, Stack.Size]

/-- Witness of C11 on the stack holding 1, 2, 3 with the count 2. -/
theorem size_spec_witness :
    Stack.Size (⟨[1, 2, 3]⟩ : Stack Nat) = (((⟨[1, 2, 3]⟩ : Stack Nat).data.length : Nat) : Int) ∧
    Stack.Size (NewStack : Stack Nat) = 0 ∧
    Stack.Size (Stack.Push (⟨[1, 2, 3]⟩ : Stack Nat) 7) = Stack.Size (⟨[1, 2, 3]⟩ : Stack Nat) + 1 ∧
    (∃ (w : Nat) (found : Bool) (s' : Stack Nat),
      Stack.Pop (⟨[1, 2, 3]⟩ : Stack Nat) = .ok ((w, found), s') ∧
      (found = true → Stack.Size s' = Stack.Size (⟨[1, 2, 3]⟩ : Stack Nat) - 1)) ∧
    (∃ (r : Option (List Nat)) (s' : Stack Nat),
      Stack.PopTopN (⟨[1, 2, 3]⟩ : Stack Nat) 2 = .ok (r, s') ∧
      (r ≠ none → Stack.Size s' = Stack.Size (⟨[1, 2, 3]⟩ : Stack Nat) - 2)) ∧
    (∃ (s' : Stack Nat),
      Stack.TrimTopN (⟨[1, 2, 3]⟩ : Stack Nat) 2 = .ok s' ∧
      ((1 : Int) ≤ 2 ∧ (2 : Int) ≤ Stack.Size (⟨[1, 2, 3]⟩ : Stack Nat) →
        Stack.Size s' = Stack.Size (⟨[1, 2, 3]⟩ : Stack Nat) - 2)) ∧
    0 ≤ Stack.Size (⟨[1, 2, 3]⟩ : Stack Nat) ∧
    (Stack.IsEmpty (⟨[1, 2, 3]⟩ : Stack Nat) = true ↔ Stack.Size (⟨[1, 2, 3]⟩ : Stack Nat) = 0) :=
  size_spec ⟨[1, 2, 3]⟩ 7 2

/-! ## Bulk operations against repeated `Pop`, `PeekAtK` against `Peek` -/

theorem PopTimes_append {α : Type u} [Inhabited α] (xs ys : List α) :
    PopTimes ys.length (⟨xs ++ ys⟩ : Stack α) =
      .ok (ys.reverse.map (fun v => (v, true)), ⟨xs⟩) := by
  induction ys using List.reverseRecOn with
  | nil => simp [PopTimes]
  | append_singleton ys y ih =>
    have hl : (ys ++ [y]).length = ys.length + 1 := by simp
    rw [hl, ← List.append_assoc]
    unfold PopTimes
    rw [Stack.Pop_append]
    simp only [bind, Except.bind]
    rw [ih]
    simp [pure, Except.pure]

theorem split_at_depth {α : Type u} (a : List α) (k : Nat) (h : k < a.length) :
    ∃ (xs : List α) (v : α) (ys : List α), a = xs ++ v :: ys ∧ ys.length = k := by
  have hj : a.length - 1 - k < a.length := by omega
  refine ⟨a.take (a.length - 1 - k), a[a.length - 1 - k], a.drop (a.length - 1 - k + 1), ?_, ?_⟩
  · rw [← List.drop_eq_getElem_cons hj, List.take_append_drop]
  · rw [List.length_drop]
    omega

theorem Stack.PeekAtK_append {α : Type u} [Inhabited α] (xs : List α) (v : α) (ys : List α) :
    Stack.PeekAtK (⟨xs ++ v :: ys⟩ : Stack α) (ys.length : Int) =
      .ok ((v, true), ⟨xs ++ v :: ys⟩) := by
  have hlen : len (xs ++ v :: ys) = (xs.length : Int) + 1 + ys.length := by
    simp [len]
    omega
  have hidx : index (xs ++ v :: ys) (len (xs ++ v :: ys) - 1 - (ys.length : Int)) = .ok v := by
    have hi : len (xs ++ v :: ys) - 1 - (ys.length : Int) = (xs.length : Int) := by omega
    have hget : (xs ++ v :: ys)[(xs.length : Int).toNat]? = some v := by
      rw [Int.toNat_ofNat, List.getElem?_append_right (le_refl _)]
      simp
    rw [hi]
    unfold index
    rw [if_neg (by omega), hget]
  have hneg : ¬ ((ys.length : Int) < 0 ∨ (ys.length : Int) ≥ len (xs ++ v :: ys)) := by omega
  unfold Stack.PeekAtK
  show (if (ys.length : Int) < 0 ∨ (ys.length : Int) ≥ len (xs ++ v :: ys) then _ else _) = _
  rw [if_neg hneg, hidx]
  rfl

/-- C16: for `1 ≤ n ≤ m`, the sequence returned by `PopTopN(n)` is the reverse of the
values returned by `n` successive `Pop()` calls from the same stack, each of which finds
an element, and both procedures end with the same stack. -/
theorem popTopN_eq_reverse_pops {α : Type u} [Inhabited α] (s : Stack α) (n : Int)
    (h1 : 1 ≤ n) (h2 : n ≤ Stack.Size s) :
    ∃ (values : List α) (pops : List (α × Bool)) (s' : Stack α),
      Stack.PopTopN s n = .ok (some values, s') ∧
      PopTimes n.toNat s = .ok (pops, s') ∧
      pops.length = n.toNat ∧
      (∀ p ∈ pops, p.2 = true) ∧
      values = (pops.map Prod.fst).reverse := by
  unfold Stack.Size at h2
  have hdrop : (s.data.drop (len s.data - n).toNat).length = n.toNat := by
    have := length_drop_sub s.data n h1 h2
    omega
  have hpops := PopTimes_append (s.data.take (len s.data - n).toNat)
    (s.data.drop (len s.data - n).toNat)
  rw [List.take_append_drop, hdrop] at hpops
  refine ⟨_, _, _, Stack.PopTopN_in_range s n h1 h2, hpops, ?_, ?_, ?_⟩
  · rw [List.length_map, List.length_reverse, hdrop]
  · intro p hp
    simp only [List.mem_map] at hp
    obtain ⟨_, _, rfl⟩ := hp
    rfl
  · simp [List.map_map, Function.comp_def]

/-- Witness of C16: the top two of the stack holding 1, 2, 3, 4 (bottom to top). -/
theorem popTopN_eq_reverse_pops_witness :
    ∃ (values : List Nat) (pops : List (Nat × Bool)) (s' : Stack Nat),
      Stack.PopTopN (⟨[1, 2, 3, 4]⟩ : Stack Nat) 2 = .ok (some values, s') ∧
      PopTimes (2 : Int).toNat (⟨[1, 2, 3, 4]⟩ : Stack Nat) = .ok (pops, s') ∧
      pops.length = (2 : Int).toNat ∧
      (∀ p ∈ pops, p.2 = true) ∧
      values = (pops.map Prod.fst).reverse :=
  popTopN_eq_reverse_pops ⟨[1, 2, 3, 4]⟩ 2 (by decide) (by decide)

/-- C17: for `0 ≤ k < m`, `PeekAtK(k)` returns the `(value, true)` pair that `Peek()`
returns after `k` successive `Pop()` calls, each of which finds an element; and
`PeekAtK(0)` is `Peek()` on every stack, the empty one included. -/
theorem peekAtK_eq_peek_after_pops {α : Type u} [Inhabited α] (s : Stack α) (k : Int) :
    (0 ≤ k ∧ k < Stack.Size s →
      ∃ (v : α) (pops : List (α × Bool)) (s' : Stack α),
        Stack.PeekAtK s k = .ok ((v, true), s) ∧
        PopTimes k.toNat s = .ok (pops, s') ∧
        pops.length = k.toNat ∧
        (∀ p ∈ pops, p.2 = true) ∧
        Stack.Peek s' = .ok ((v, true), s')) ∧
    Stack.PeekAtK s 0 = Stack.Peek s := by
  constructor
  · rintro ⟨h0, h1⟩
    unfold Stack.Size len at h1
    obtain ⟨xs, v, ys, hdata, hys⟩ := split_at_depth s.data k.toNat (by omega)
    have hk : k = (ys.length : Int) := by omega
    cases s with
    | mk data =>
      simp only at hdata
      subst hdata
      have hpops := PopTimes_append (xs ++ [v]) ys
      rw [List.append_assoc, List.singleton_append] at hpops
      refine ⟨v, ys.reverse.map (fun w => (w, true)), ⟨xs ++ [v]⟩, ?_, ?_, ?_, ?_,
        Stack.Peek_append xs v⟩
      · rw [hk]
        exact Stack.PeekAtK_append xs v ys
      · rw [hys] at hpops
        exact hpops
      · simp [hys]
      · intro p hp
        simp only [List.mem_map] at hp
        obtain ⟨_, _, rfl⟩ := hp
        rfl
  · cases s with
    | mk data =>
      rcases nil_or_append_last data with h | ⟨xs, v, h⟩
      · subst h
        rw [Stack.Peek_nil]
        simp [Stack.PeekAtK, len]
      · subst h
        rw [Stack.Peek_append]
        exact Stack.PeekAtK_append xs v []

/-- Witness of C17: depth 2 in the stack holding 1, 2, 3, 4 (bottom to top). -/
theorem peekAtK_eq_peek_after_pops_witness :
    ((0 : Int) ≤ 2 ∧ (2 : Int) < Stack.Size (⟨[1, 2, 3, 4]⟩ : Stack Nat) →
      ∃ (v : Nat) (pops : List (Nat × Bool)) (s' : Stack Nat),
        Stack.PeekAtK (⟨[1, 2, 3, 4]⟩ : Stack Nat) 2 = .ok ((v, true), ⟨[1, 2, 3, 4]⟩) ∧
        PopTimes (2 : Int).toNat (⟨[1, 2, 3, 4]⟩ : Stack Nat) = .ok (pops, s') ∧
        pops.length = (2 : Int).toNat ∧
        (∀ p ∈ pops, p.2 = true) ∧
        Stack.Peek s' = .ok ((v, true), s')) ∧
    Stack.PeekAtK (⟨[1, 2, 3, 4]⟩ : Stack Nat) 0 = Stack.Peek (⟨[1, 2, 3, 4]⟩ : Stack Nat) :=
  peekAtK_eq_peek_after_pops ⟨[1, 2, 3, 4]⟩ 2

/-! ## Push seen through `PeekAtK` -/

theorem Stack.PeekAtK_out_of_range {α : Type u} [Inhabited α] (s : Stack α) (k : Int)
    (h : k < 0 ∨ k ≥ len s.data) : Stack.PeekAtK s k = .ok ((default, false), s) := by
  unfold Stack.PeekAtK
  rw [if_pos h]

theorem Stack.PeekAtK_in_range {α : Type u} [Inhabited α] (s : Stack α) (k : Int)
    (h0 : 0 ≤ k) (h1 : k < len s.data) :
    ∃ v, Stack.PeekAtK s k = .ok ((v, true), s) ∧ s.data[(len s.data - 1 - k).toNat]? = some v := by
  obtain ⟨v, hv, hget⟩ := index_of_lt s.data (len s.data - 1 - k) (by omega) (by omega)
  refine ⟨v, ?_, hget⟩
  unfold Stack.PeekAtK
  rw [if_neg (by omega), hv]
  rfl

/-- C18, as stated, fails at `k = -1`: on the stack holding 5, after `Push(7)`,
`PeekAtK(-1 + 1)` returns `(7, true)` while `PeekAtK(-1)` returned `(0, false)` before
the `Push`. -/
theorem push_peekAtK_counterexample :
    Except.map Prod.fst (Stack.PeekAtK (Stack.Push (⟨[5]⟩ : Stack Nat) 7) (-1 + 1)) =
      .ok (7, true) ∧
    Except.map Prod.fst (Stack.PeekAtK (⟨[5]⟩ : Stack Nat) (-1)) = .ok (0, false) ∧
    Except.map Prod.fst (Stack.PeekAtK (Stack.Push (⟨[5]⟩ : Stack Nat) 7) (-1 + 1)) ≠
      Except.map Prod.fst (Stack.PeekAtK (⟨[5]⟩ : Stack Nat) (-1)) := by
  have ha : Except.map Prod.fst (Stack.PeekAtK (Stack.Push (⟨[5]⟩ : Stack Nat) 7) (-1 + 1)) =
      .ok (7, true) := rfl
  have hb : Except.map Prod.fst (Stack.PeekAtK (⟨[5]⟩ : Stack Nat) (-1)) = .ok (0, false) := rfl
  refine ⟨ha, hb, ?_⟩
  rw [ha, hb]
  intro h
  cases h

/-- C18, amended: for every stack `s`, value `v` and integer `k` other than `-1`, after
`Push(v)` the call `PeekAtK(0)` returns `(v, true)` and `PeekAtK(k+1)` returns the pair
that `PeekAtK(k)` returned on `s` before the `Push`; neither call changes its stack. -/
theorem push_peekAtK_spec {α : Type u} [Inhabited α] (s : Stack α) (v : α) (k : Int)
    (hk : k ≠ -1) :
    Stack.PeekAtK (Stack.Push s v) 0 = .ok ((v, true), Stack.Push s v) ∧
    ∃ (r : α × Bool),
      Stack.PeekAtK s k = .ok (r, s) ∧
      Stack.PeekAtK (Stack.Push s v) (k + 1) = .ok (r, Stack.Push s v) := by
  have hlen : len (Stack.Push s v).data = len s.data + 1 := by
    simp [Stack.Push, len]
  have hnn := len_nonneg s.data
  constructor
  · exact Stack.PeekAtK_append s.data v []
  · by_cases h : k < 0 ∨ k ≥ len s.data
    · exact ⟨(default, false), Stack.PeekAtK_out_of_range s k h,
        Stack.PeekAtK_out_of_range (Stack.Push s v) (k + 1) (by omega)⟩
    · obtain ⟨a, ha, hga⟩ := Stack.PeekAtK_in_range s k (by omega) (by omega)
      obtain ⟨b, hb, hgb⟩ := Stack.PeekAtK_in_range (Stack.Push s v) (k + 1) (by omega) (by omega)
      have hidx : (len (Stack.Push s v).data - 1 - (k + 1)).toNat = (len s.data - 1 - k).toNat := by
        omega
      have hlt : (len s.data - 1 - k).toNat < s.data.length := by
        unfold len at h ⊢
        omega
      rw [hidx] at hgb
      have hpush : (Stack.Push s v).data = s.data ++ [v] := rfl
      rw [hpush, List.getElem?_append_left hlt, hga] at hgb
      have hab : a = b := by
        injection hgb
      subst hab
      exact ⟨(a, true), ha, hb⟩

/-- Witness of C18 (amended): depth 0 before and depth 1 after pushing 7 on the stack
holding 1, 2. -/
theorem push_peekAtK_spec_witness :
    (0 : Int) ≠ -1 ∧
    (Stack.PeekAtK (Stack.Push (⟨[1, 2]⟩ : Stack Nat) 7) 0 =
        .ok ((7, true), Stack.Push (⟨[1, 2]⟩ : Stack Nat) 7) ∧
      ∃ (r : Nat × Bool),
        Stack.PeekAtK (⟨[1, 2]⟩ : Stack Nat) 0 = .ok (r, ⟨[1, 2]⟩) ∧
        Stack.PeekAtK (Stack.Push (⟨[1, 2]⟩ : Stack Nat) 7) (0 + 1) =
          .ok (r, Stack.Push (⟨[1, 2]⟩ : Stack Nat) 7)) :=
  ⟨by decide, push_peekAtK_spec ⟨[1, 2]⟩ 7 0 (by decide)⟩

/-! ## String -/

theorem intercalate_go_eq (sep acc : String) (l : List String) :
    String.intercalate.go acc sep l = acc ++ String.intercalate.go "" sep l := by
  induction l generalizing acc with
  | nil => simp [String.intercalate.go]
  | cons a rest ih =>
    simp only [String.intercalate.go]
    rw [ih (acc ++ sep ++ a), ih ("" ++ sep ++ a)]
    simp [String.append_assoc]

theorem intercalate_cons_cons (sep a b : String) (l : List String) :
    sep.intercalate (a :: b :: l) = a ++ sep ++ sep.intercalate (b :: l) := by
  simp only [String.intercalate, String.intercalate.go]
  rw [intercalate_go_eq sep (a ++ sep ++ b) l, intercalate_go_eq sep b l]
  simp [String.append_assoc]

theorem stringLoop_eq {α : Type u} (render : α → String) (n : Int) (suf : List α) (i : Int)
    (acc : String) (h : i + (suf.length : Int) = n) :
    stringLoop render n suf i acc = acc ++ ", ".intercalate (suf.map render) := by
  induction suf generalizing i acc with
  | nil => simp [stringLoop, String.intercalate]
  | cons x rest ih =>
    simp only [List.length_cons, Nat.cast_add, Nat.cast_one] at h
    cases rest with
    | nil =>
      simp only [List.length_nil, Nat.cast_zero] at h
      simp only [stringLoop]
      rw [if_neg (by omega)]
      simp [String.intercalate, String.intercalate.go]
    | cons y rest' =>
      have hlt : i < n - 1 := by
        simp only [List.length_cons, Nat.cast_add, Nat.cast_one] at h
        omega
      unfold stringLoop
      simp only []
      rw [if_pos hlt, ih (i + 1) _ (by omega)]
      simp only [List.map_cons]
      rw [intercalate_cons_cons]
      simp [String.append_assoc]

/-- C19: `String()` returns `[`, then the renderings of the elements from the bottom to
the top separated by `, ` (none before the first, none after the last), then `]`; the
empty stack gives `[]`, a stack of one element `x` gives `[x]`; the stack is unchanged. -/
theorem string_spec {α : Type u} (s : Stack α) (render : α → String) (x : α) :
    Stack.String s render = ("[" ++ ", ".intercalate (s.data.map render) ++ "]", s) ∧
    Stack.String (⟨[]⟩ : Stack α) render = ("[]", ⟨[]⟩) ∧
    Stack.String (⟨[x]⟩ : Stack α) render = ("[" ++ render x ++ "]", ⟨[x]⟩) := by
  have hgen : ∀ (t : Stack α),
      Stack.String t render = ("[" ++ ", ".intercalate (t.data.map render) ++ "]", t) := by
    intro t
    unfold Stack.String
    rw [stringLoop_eq render (len t.data) t.data 0 "[" (by simp [len])]
  refine ⟨hgen s, ?_, ?_⟩
  · rw [hgen]
    rfl
  · rw [hgen]
    simp [String.intercalate, String.intercalate.go]

end Collections

namespace Lexer

/-! ## The cursor only moves forward -/

theorem suffix_cons_of {α : Type} {r l : List α} (a : α) (h : r <:+ l) : r <:+ a :: l :=
  h.trans (List.suffix_cons a l)

theorem skipTrivia_suffix (m : TriviaMode) (input r : List Char)
    (h : skipTrivia m input = .ok r) : r <:+ input := by
  induction m, input using skipTrivia.induct generalizing r with
  | case1 =>
    simp [skipTrivia] at h
    subst h
    exact List.suffix_refl _
  | case2 c rest hw ih =>
    unfold skipTrivia at h
    rw [if_pos hw] at h
    exact suffix_cons_of _ (ih r h)
  | case3 rest1 hw ih =>
    unfold skipTrivia at h
    simp only [hw, if_true, if_false] at h
    exact suffix_cons_of _ (suffix_cons_of _ (ih r h))
  | case4 rest1 hw hne ih =>
    unfold skipTrivia at h
    simp only [hw, hne, if_true, if_false] at h
    exact suffix_cons_of _ (suffix_cons_of _ (ih r h))
  | case5 d rest1 h1 h2 hw =>
    unfold skipTrivia at h
    simp only [hw, h1, h2, if_true, if_false] at h
    injection h with h
    subst h
    exact List.suffix_refl _
  | case6 hw =>
    unfold skipTrivia at h
    simp only [hw, if_true, if_false] at h
    injection h with h
    subst h
    exact List.suffix_refl _
  | case7 c rest hw hc =>
    unfold skipTrivia at h
    simp only [hw, hc, if_false] at h
    injection h with h
    subst h
    exact List.suffix_refl _
  | case8 =>
    simp [skipTrivia] at h
    subst h
    exact List.suffix_refl _
  | case9 rest ih =>
    unfold skipTrivia at h
    simp only [if_true] at h
    exact suffix_cons_of _ (ih r h)
  | case10 c rest hc ih =>
    unfold skipTrivia at h
    simp only [hc, if_false] at h
    exact suffix_cons_of _ (ih r h)
  | case11 => simp [skipTrivia] at h
  | case12 rest ih =>
    unfold skipTrivia at h
    simp only [if_true] at h
    exact suffix_cons_of _ (ih r h)
  | case13 c rest hc ih =>
    unfold skipTrivia at h
    simp only [hc, if_false] at h
    exact suffix_cons_of _ (ih r h)
  | case14 => simp [skipTrivia] at h
  | case15 rest ih =>
    unfold skipTrivia at h
    simp only [if_true] at h
    exact suffix_cons_of _ (ih r h)
  | case16 rest hne ih =>
    unfold skipTrivia at h
    simp only [hne, if_true, if_false] at h
    exact suffix_cons_of _ (ih r h)
  | case17 c rest h1 h2 ih =>
    unfold skipTrivia at h
    simp only [h1, h2, if_false] at h
    exact suffix_cons_of _ (ih r h)

theorem scanFraction_suffix (H : Host) (pre : List Char) (isHex : Bool) (r1 : List Char) :
    (scanFraction H pre isHex r1).rest <:+ r1 := by
  unfold scanFraction
  simp only []
  split_ifs
  · exact List.dropWhile_suffix _
  · exact (List.dropWhile_suffix _).trans (List.dropWhile_suffix _)
  · exact List.dropWhile_suffix _
  · exact List.dropWhile_suffix _

theorem scanHex_suffix (H : Host) (x : Char) (r1 : List Char) :
    (scanHex H x r1).rest <:+ r1 := by
  unfold scanHex
  simp only []
  split_ifs
  · exact (List.dropWhile_suffix _).trans (List.dropWhile_suffix _)
  · split
    · rename_i c r3 hr2
      have hsuf : c :: r3 <:+ r1 := hr2 ▸ List.dropWhile_suffix _
      split_ifs
      · exact (List.dropWhile_suffix _).trans (List.dropWhile_suffix _)
      · exact (scanFraction_suffix H _ _ r3).trans ((List.suffix_cons c r3).trans hsuf)
      · exact List.dropWhile_suffix _
    · exact List.dropWhile_suffix _

theorem scanNumber_suffix (H : Host) (input : List Char) :
    (scanNumber H input).rest <:+ input.dropWhile isDigit := by
  unfold scanNumber
  simp only []
  split
  · rename_i c r1 hrest
    rw [hrest]
    split_ifs
    · exact suffix_cons_of _ (scanHex_suffix H c r1)
    · exact List.dropWhile_suffix _
    · exact suffix_cons_of _ (scanFraction_suffix H _ _ r1)
    · exact List.dropWhile_suffix _
    · exact List.dropWhile_suffix _
    · exact List.suffix_refl _
  · rename_i hrest
    rw [hrest]
    split_ifs
    · exact List.suffix_refl _
    · exact List.suffix_refl _

theorem resyncString_suffix (input : List Char) : resyncString input <:+ input := by
  induction input using resyncString.induct with
  | case1 => exact List.suffix_refl _
  | case2 rest =>
    unfold resyncString
    simp only [if_true]
    exact List.suffix_cons _ _
  | case3 rest hq =>
    unfold resyncString
    simp only [hq, if_true, if_false]
    exact List.suffix_refl _
  | case4 rest1 hq hn =>
    unfold resyncString
    simp only [hq, hn, if_true, if_false]
    exact List.suffix_cons _ _
  | case5 d rest1 hd hq hn ih =>
    unfold resyncString
    simp only [hd, hq, hn, if_true, if_false]
    exact suffix_cons_of _ (suffix_cons_of _ ih)
  | case6 hq hn =>
    unfold resyncString
    simp only [hq, hn, if_true, if_false]
    exact List.nil_suffix
  | case7 c rest hq hn hb ih =>
    unfold resyncString
    simp only [hq, hn, hb, if_false]
    exact suffix_cons_of _ ih

theorem scanStringLoop_suffix (acc : List Char) (skip : Nat) (input : List Char) :
    (scanStringLoop acc skip input).rest <:+ input := by
  induction acc, skip, input using scanStringLoop.induct with
  | case1 acc k =>
    cases k <;> exact List.suffix_refl _
  | case2 acc skip head rest ih =>
    unfold scanStringLoop
    exact suffix_cons_of _ ih
  | case3 acc rest =>
    unfold scanStringLoop
    simp only [if_true]
    exact List.suffix_cons _ _
  | case4 acc rest hq =>
    unfold scanStringLoop
    simp only [hq, if_true, if_false]
    exact List.suffix_refl _
  | case5 acc rest v n hdec hq hn ih =>
    unfold scanStringLoop
    simp only [hq, hn, hdec, if_true, if_false]
    exact suffix_cons_of _ ih
  | case6 acc rest e hdec hq hn =>
    unfold scanStringLoop
    simp only [hq, hn, hdec, if_true, if_false]
    exact suffix_cons_of _ (resyncString_suffix rest)
  | case7 acc c rest hq hn hb ih =>
    unfold scanStringLoop
    simp only [hq, hn, hb, if_false]
    exact suffix_cons_of _ ih

theorem scanRawStringLoop_suffix (acc : List Char) (input : List Char) :
    (scanRawStringLoop acc input).rest <:+ input := by
  induction input generalizing acc with
  | nil =>
    unfold scanRawStringLoop
    exact List.suffix_refl _
  | cons c rest ih =>
    unfold scanRawStringLoop
    split_ifs
    · exact List.suffix_cons _ _
    · exact suffix_cons_of _ (ih _)

theorem resyncChar_suffix (e : LexError) (r : List Char) : (resyncChar e r).rest <:+ r := by
  unfold resyncChar
  split
  · rename_i c rest hdrop
    have hsuf : c :: rest <:+ r := hdrop ▸ List.dropWhile_suffix _
    split_ifs
    · exact (List.suffix_cons c rest).trans hsuf
    · exact hsuf
  · exact List.nil_suffix

theorem closeChar_suffix (v : List Char) (r : List Char) : (closeChar v r).rest <:+ r := by
  unfold closeChar
  split
  · split_ifs
    · exact List.suffix_cons _ _
    · exact resyncChar_suffix _ _
  · exact List.suffix_refl _

theorem scanChar_suffix (rest : List Char) : (scanChar rest).rest <:+ rest := by
  unfold scanChar
  split
  · exact List.suffix_refl _
  · rename_i c r
    split_ifs
    · exact List.suffix_refl _
    · split
      · exact suffix_cons_of _ ((closeChar_suffix _ _).trans (List.drop_suffix _ _))
      · exact suffix_cons_of _ (resyncChar_suffix _ _)
    · exact suffix_cons_of _ (closeChar_suffix _ _)

theorem scanIdentifier_suffix (H : Host) (c : Char) (rest : List Char) :
    (scanIdentifier H c rest).rest <:+ rest := by
  unfold scanIdentifier
  exact List.dropWhile_suffix _

/-! ## The longest match -/

/-- One step of the fold of `longestMatch`. -/
theorem longestMatch_step (input : List Char) (table : List (List Char))
    (best : Option (List Char)) :
    (∀ b, table.foldl
        (fun best op =>
          if op.isPrefixOf input &&
            (best.map (fun b => decide (b.length < op.length))).getD true
          then some op else best) best = some b →
        best = some b ∨ (b ∈ table ∧ b <+: input)) ∧
    (∀ b0, best = some b0 → ∃ b, table.foldl
        (fun best op =>
          if op.isPrefixOf input &&
            (best.map (fun b => decide (b.length < op.length))).getD true
          then some op else best) best = some b ∧ b0.length ≤ b.length) ∧
    (∀ op ∈ table, op <+: input → ∃ b, table.foldl
        (fun best op =>
          if op.isPrefixOf input &&
            (best.map (fun b => decide (b.length < op.length))).getD true
          then some op else best) best = some b ∧ op.length ≤ b.length) := by
  induction table generalizing best with
  | nil =>
    refine ⟨fun b h => Or.inl h, fun b0 h => ⟨b0, h, le_refl _⟩, ?_⟩
    intro op hop
    cases hop
  | cons x t ih =>
    simp only [List.foldl_cons]
    by_cases hx : (x.isPrefixOf input &&
        (best.map (fun b => decide (b.length < x.length))).getD true) = true
    · rw [if_pos hx]
      obtain ⟨ihA, ihB, ihC⟩ := ih (some x)
      simp only [Bool.and_eq_true, List.isPrefixOf_iff_prefix] at hx
      refine ⟨?_, ?_, ?_⟩
      · intro b hb
        rcases ihA b hb with h | ⟨h1, h2⟩
        · injection h with h
          subst h
          exact Or.inr ⟨List.mem_cons_self _ _, hx.1⟩
        · exact Or.inr ⟨List.mem_cons_of_mem _ h1, h2⟩
      · intro b0 hb0
        subst hb0
        obtain ⟨b, hb, hle⟩ := ihB x rfl
        refine ⟨b, hb, ?_⟩
        have := hx.2
        simp at this
        omega
      · intro op hop hpre
        rcases List.mem_cons.mp hop with h | h
        · subst h
          exact ihB op rfl
        · exact ihC op h hpre
    · rw [if_neg hx]
      obtain ⟨ihA, ihB, ihC⟩ := ih best
      refine ⟨?_, ihB, ?_⟩
      · intro b hb
        rcases ihA b hb with h | ⟨h1, h2⟩
        · exact Or.inl h
        · exact Or.inr ⟨List.mem_cons_of_mem _ h1, h2⟩
      · intro op hop hpre
        rcases List.mem_cons.mp hop with h | h
        · subst h
          simp only [Bool.and_eq_true, List.isPrefixOf_iff_prefix, not_and] at hx
          have hx2 := hx hpre
          cases best with
          | none => simp at hx2
          | some b0 =>
            simp at hx2
            obtain ⟨b, hb, hle⟩ := ihB b0 rfl
            exact ⟨b, hb, by omega⟩
        · exact ihC op h hpre

theorem longestMatch_some (table : List (List Char)) (input lex : List Char)
    (h : longestMatch table input = some lex) :
    lex ∈ table ∧ lex <+: input ∧
      ∀ op ∈ table, op <+: input → op.length ≤ lex.length := by
  unfold longestMatch at h
  obtain ⟨hA, _, hC⟩ := longestMatch_step input table none
  rcases hA lex h with h0 | ⟨h1, h2⟩
  · cases h0
  · refine ⟨h1, h2, ?_⟩
    intro op hop hpre
    obtain ⟨b, hb, hle⟩ := hC op hop hpre
    rw [h] at hb
    injection hb with hb
    subst hb
    exact hle

theorem longestMatch_of_mem (table : List (List Char)) (input op : List Char)
    (hop : op ∈ table) (hpre : op <+: input) :
    ∃ lex, longestMatch table input = some lex := by
  obtain ⟨_, _, hC⟩ := longestMatch_step input table none
  obtain ⟨b, hb, _⟩ := hC op hop hpre
  exact ⟨b, hb⟩

theorem operatorTable_ne_nil : ∀ op ∈ operatorTable, op ≠ [] := by
  decide

theorem matchOperator_suffix (c : Char) (rest : List Char) (r : Result)
    (h : matchOperator (c :: rest) = some r) : r.rest <:+ rest := by
  unfold matchOperator at h
  split at h
  · rename_i op hop
    injection h with h
    subst h
    obtain ⟨hmem, _, _⟩ := longestMatch_some _ _ _ hop
    have hne := operatorTable_ne_nil op hmem
    cases op with
    | nil => exact absurd rfl hne
    | cons a t =>
      show List.drop (t.length + 1) (c :: rest) <:+ rest
      rw [List.drop_succ_cons]
      exact List.drop_suffix _ _
  · simp only [] at h
    split_ifs at h
    injection h with h
    subst h
    exact List.suffix_refl _

/-! ## Progress -/

theorem NextToken_eof_or_shorter (H : Host) (input : List Char) :
    NextToken H input = emit .EOF [] [] ∨ (NextToken H input).rest.length < input.length := by
  unfold NextToken
  split
  · rename_i e he
    right
    cases input with
    | nil => simp [skipTrivia] at he
    | cons a t => simp [failWith]
  · left
    rfl
  · rename_i c rest hskip
    right
    have hlen : rest.length + 1 ≤ input.length := by
      have := (skipTrivia_suffix _ _ _ hskip).length_le
      simpa using this
    have key : ∀ (r : Result), r.rest <:+ rest → r.rest.length < input.length := by
      intro r hr
      have := hr.length_le
      omega
    split_ifs with hd hq hb ha hi
    · apply key
      have h := scanNumber_suffix H (c :: rest)
      rw [List.dropWhile_cons_of_pos hd] at h
      exact h.trans (List.dropWhile_suffix _)
    · exact key _ (scanStringLoop_suffix _ _ _)
    · exact key _ (scanRawStringLoop_suffix _ _)
    · exact key _ (scanChar_suffix _)
    · exact key _ (scanIdentifier_suffix H c rest)
    · split
      · rename_i r hr
        exact key _ (matchOperator_suffix c rest r hr)
      · exact key _ (List.suffix_refl _)

theorem NextToken_suffix (H : Host) (input : List Char) :
    (NextToken H input).rest <:+ input := by
  unfold NextToken
  split
  · exact List.nil_suffix
  · exact List.nil_suffix
  · rename_i c rest hskip
    have hsuf : rest <:+ input :=
      (List.suffix_cons c rest).trans (skipTrivia_suffix _ _ _ hskip)
    split_ifs with hd hq hb ha hi
    · have h := scanNumber_suffix H (c :: rest)
      rw [List.dropWhile_cons_of_pos hd] at h
      exact (h.trans (List.dropWhile_suffix _)).trans hsuf
    · exact (scanStringLoop_suffix _ _ _).trans hsuf
    · exact (scanRawStringLoop_suffix _ _).trans hsuf
    · exact (scanChar_suffix _).trans hsuf
    · exact (scanIdentifier_suffix H c rest).trans hsuf
    · split
      · rename_i r hr
        exact (matchOperator_suffix c rest r hr).trans hsuf
      · exact hsuf

theorem LexerActLoop_isSome (H : Host) (fuel : Nat) (cursor : List Char) (tokens : List Token)
    (errCount : Nat) (h : cursor.length < fuel) :
    (LexerActLoop H fuel cursor tokens errCount).isSome = true := by
  induction fuel generalizing cursor tokens errCount with
  | zero => omega
  | succ fuel ih =>
    unfold LexerActLoop
    simp only []
    by_cases h1 : (NextToken H cursor).token.Typ = .EOF
    · rw [if_pos h1]
      rfl
    · rw [if_neg h1]
      by_cases h2 : (NextToken H cursor).err = some .EndOfInput
      · rw [if_pos h2]
        rfl
      · rw [if_neg h2]
        apply ih
        rcases NextToken_eof_or_shorter H cursor with he | hlt
        · rw [he] at h1
          exact absurd rfl h1
        · omega

theorem reaches_eof (H : Host) (m : Nat) (input : List Char) (hm : input.length ≤ m) :
    ∃ n, n ≤ input.length ∧ NextToken H (cursorAfter H n input) = emit .EOF [] [] := by
  induction m generalizing input with
  | zero =>
    rcases NextToken_eof_or_shorter H input with he | hlt
    · exact ⟨0, Nat.zero_le _, he⟩
    · omega
  | succ m ih =>
    rcases NextToken_eof_or_shorter H input with he | hlt
    · exact ⟨0, Nat.zero_le _, he⟩
    · obtain ⟨n, hle, hn⟩ := ih (NextToken H input).rest (by omega)
      exact ⟨n + 1, by omega, hn⟩

/-- C12: the cursor after a call of `NextToken` is a suffix of the cursor before, and a
strictly shorter one when the call does not return `EOF`, whether it returns a token or an
error; hence after at most as many calls as the text has runes a call returns `EOF` with
no error, and the loop of `LexerAct` ends. -/
theorem nextToken_progress (H : Host) (input : List Char) :
    (NextToken H input).rest <:+ input ∧
    ((NextToken H input).token.Typ ≠ .EOF →
      (NextToken H input).rest.length < input.length) ∧
    (∃ n, n ≤ input.length ∧ NextToken H (cursorAfter H n input) = emit .EOF [] []) ∧
    (∃ result, LexerAct H input = some result) := by
  refine ⟨NextToken_suffix H input, ?_, ?_, ?_⟩
  · intro hne
    rcases NextToken_eof_or_shorter H input with he | hlt
    · rw [he] at hne
      exact absurd rfl hne
    · exact hlt
  · exact reaches_eof H input.length input (le_refl _)
  · exact Option.isSome_iff_exists.mp
      (LexerActLoop_isSome H (input.length + 1) input [] 0 (Nat.lt_succ_self _))

/-! ## Operators -/

theorem operator_head (op : List Char) (hop : op ∈ operatorTable) :
    ∃ a t, op = a :: t ∧
      a ∈ ['+', '-', '*', '/', '%', '=', '!', '<', '>', '&', '|', '^'] := by
  have h : ∀ op ∈ operatorTable,
      op.head? ∈ (['+', '-', '*', '/', '%', '=', '!', '<', '>', '&', '|', '^'].map some) := by
    decide
  have := h op hop
  cases op with
  | nil => simp at this
  | cons a t =>
    refine ⟨a, t, rfl, ?_⟩
    simpa using this

theorem operator_start_dispatch (H : Host) (a : Char)
    (ha : a ∈ ['+', '-', '*', '/', '%', '=', '!', '<', '>', '&', '|', '^']) :
    isDigit a = false ∧ a ≠ quote ∧ a ≠ backtick ∧ a ≠ apostrophe ∧
      isIdentStart H a = false := by
  simp only [List.mem_cons, List.mem_singleton, List.not_mem_nil, or_false] at ha
  rcases ha with h | h | h | h | h | h | h | h | h | h | h | h <;> subst h <;>
    exact ⟨rfl, by decide, by decide, by decide, rfl⟩

theorem NextToken_operator (H : Host) (input cursor op : List Char)
    (hskip : skipTrivia .normal input = .ok cursor)
    (hop : op ∈ operatorTable) (hpre : op <+: cursor) :
    ∃ lex rest, NextToken H input = emit .OPERATOR lex rest ∧
      lex ∈ operatorTable ∧ cursor = lex ++ rest ∧
      ∀ op' ∈ operatorTable, op' <+: cursor → op'.length ≤ lex.length := by
  obtain ⟨lex, hlex⟩ := longestMatch_of_mem operatorTable cursor op hop hpre
  obtain ⟨hmem, hlpre, hmax⟩ := longestMatch_some _ _ _ hlex
  obtain ⟨a, t, hat, ha⟩ := operator_head op hop
  obtain ⟨hd, hq, hb, hap, hi⟩ := operator_start_dispatch H a ha
  obtain ⟨tl, htl⟩ := hpre
  subst hat
  have hcur : cursor = a :: (t ++ tl) := by
    rw [← htl]
    rfl
  refine ⟨lex, cursor.drop lex.length, ?_, hmem, (List.prefix_iff_eq_append.mp hlpre).symm, hmax⟩
  unfold NextToken
  rw [hskip]
  subst hcur
  simp only [hd, hq, hb, hap, hi, if_false, Bool.false_eq_true]
  unfold matchOperator
  rw [hlex]

/-! ## The driver loop, one call at a time -/

theorem LexerActLoop_token (H : Host) (fuel : Nat) (cursor : List Char) (tokens : List Token)
    (errCount : Nat) (t : TokenType) (v rest : List Char)
    (h : NextToken H cursor = emit t v rest) (ht : t ≠ .EOF) :
    LexerActLoop H (fuel + 1) cursor tokens errCount =
      LexerActLoop H fuel rest (tokens ++ [⟨t, v⟩]) errCount := by
  conv_lhs => rw [LexerActLoop]
  simp only [h, emit]
  rw [if_neg ht, if_neg (by simp), if_neg (by simp)]

theorem LexerActLoop_error (H : Host) (fuel : Nat) (cursor : List Char) (tokens : List Token)
    (errCount : Nat) (e : LexError) (rest : List Char)
    (h : NextToken H cursor = failWith e rest) (he : e ≠ .EndOfInput) :
    LexerActLoop H (fuel + 1) cursor tokens errCount =
      LexerActLoop H fuel rest (tokens ++ [⟨.NONE, []⟩]) (errCount + 1) := by
  conv_lhs => rw [LexerActLoop]
  simp only [h, failWith]
  rw [if_neg (by simp), if_neg (by simpa using he), if_pos (by simpa using he)]

theorem LexerActLoop_eof (H : Host) (fuel : Nat) (cursor : List Char) (tokens : List Token)
    (errCount : Nat) (h : NextToken H cursor = emit .EOF [] []) :
    LexerActLoop H (fuel + 1) cursor tokens errCount = some (tokens, errCount) := by
  conv_lhs => rw [LexerActLoop]
  simp [h, emit]

theorem operator_mixed (H : Host) :
    LexerAct H "<=> >=< !=> >-< === ====".toList =
      some (["<=", ">", ">=", "<", "!=", ">", ">", "-", "<", "==", "=", "==", "=="].map
        (fun s => Token.mk .OPERATOR s.toList), 0) := by
  have h0 : NextToken H "<=> >=< !=> >-< === ====".toList = emit .OPERATOR "<=".toList "> >=< !=> >-< === ====".toList := rfl
  have h1 : NextToken H "> >=< !=> >-< === ====".toList = emit .OPERATOR ">".toList " >=< !=> >-< === ====".toList := rfl
  have h2 : NextToken H " >=< !=> >-< === ====".toList = emit .OPERATOR ">=".toList "< !=> >-< === ====".toList := rfl
  have h3 : NextToken H "< !=> >-< === ====".toList = emit .OPERATOR "<".toList " !=> >-< === ====".toList := rfl
  have h4 : NextToken H " !=> >-< === ====".toList = emit .OPERATOR "!=".toList "> >-< === ====".toList := rfl
  have h5 : NextToken H "> >-< === ====".toList = emit .OPERATOR ">".toList " >-< === ====".toList := rfl
  have h6 : NextToken H " >-< === ====".toList = emit .OPERATOR ">".toList "-< === ====".toList := rfl
  have h7 : NextToken H "-< === ====".toList = emit .OPERATOR "-".toList "< === ====".toList := rfl
  have h8 : NextToken H "< === ====".toList = emit .OPERATOR "<".toList " === ====".toList := rfl
  have h9 : NextToken H " === ====".toList = emit .OPERATOR "==".toList "= ====".toList := rfl
  have h10 : NextToken H "= ====".toList = emit .OPERATOR "=".toList " ====".toList := rfl
  have h11 : NextToken H " ====".toList = emit .OPERATOR "==".toList "==".toList := rfl
  have h12 : NextToken H "==".toList = emit .OPERATOR "==".toList [] := rfl
  have hend : NextToken H [] = emit .EOF [] [] := rfl
  show LexerActLoop H 25 "<=> >=< !=> >-< === ====".toList [] 0 = _
  rw [LexerActLoop_token H _ _ _ _ _ _ _ h0 (by decide),
    LexerActLoop_token H _ _ _ _ _ _ _ h1 (by decide),
    LexerActLoop_token H _ _ _ _ _ _ _ h2 (by decide),
    LexerActLoop_token H _ _ _ _ _ _ _ h3 (by decide),
    LexerActLoop_token H _ _ _ _ _ _ _ h4 (by decide),
    LexerActLoop_token H _ _ _ _ _ _ _ h5 (by decide),
    LexerActLoop_token H _ _ _ _ _ _ _ h6 (by decide),
    LexerActLoop_token H _ _ _ _ _ _ _ h7 (by decide),
    LexerActLoop_token H _ _ _ _ _ _ _ h8 (by decide),
    LexerActLoop_token H _ _ _ _ _ _ _ h9 (by decide),
    LexerActLoop_token H _ _ _ _ _ _ _ h10 (by decide),
    LexerActLoop_token H _ _ _ _ _ _ _ h11 (by decide),
    LexerActLoop_token H _ _ _ _ _ _ _ h12 (by decide),
    LexerActLoop_eof H _ _ _ _ hend]
  rfl

/-- C13: at a position reached after trivia where a lexeme of the operator table starts,
`NextToken` returns, with no error, the `OPERATOR` token of the longest table lexeme that
is a prefix of the remaining input and consumes exactly that lexeme; and the text
`<=> >=< !=> >-< === ====` gives the operators `<= > >= < != > > - < == = == ==` in this
order with zero errors. -/
theorem maximal_munch (H : Host) (input cursor op : List Char)
    (hskip : skipTrivia .normal input = .ok cursor)
    (hop : op ∈ operatorTable) (hpre : op <+: cursor) :
    (∃ lex rest, NextToken H input = emit .OPERATOR lex rest ∧
      lex ∈ operatorTable ∧ cursor = lex ++ rest ∧
      ∀ op' ∈ operatorTable, op' <+: cursor → op'.length ≤ lex.length) ∧
    LexerAct H "<=> >=< !=> >-< === ====".toList =
      some (["<=", ">", ">=", "<", "!=", ">", ">", "-", "<", "==", "=", "==", "=="].map
        (fun s => Token.mk .OPERATOR s.toList), 0) :=
  ⟨NextToken_operator H input cursor op hskip hop hpre, operator_mixed H⟩

/-- Witness of C13: after a blank, at `<=x`, with the table lexeme `<` as a prefix. -/
theorem maximal_munch_witness :
    (skipTrivia .normal " <=x".toList = .ok "<=x".toList ∧
      "<".toList ∈ operatorTable ∧ "<".toList <+: "<=x".toList) ∧
    ∃ lex rest,
      NextToken ⟨fun _ => false, fun _ => false, id⟩ " <=x".toList = emit .OPERATOR lex rest ∧
      lex ∈ operatorTable ∧ "<=x".toList = lex ++ rest ∧
      ∀ op' ∈ operatorTable, op' <+: "<=x".toList → op'.length ≤ lex.length :=
  ⟨⟨rfl, by decide, by decide⟩,
    (maximal_munch ⟨fun _ => false, fun _ => false, id⟩ " <=x".toList "<=x".toList "<".toList
      rfl (by decide) (by decide)).1⟩

/-! ## Identifiers -/

theorem isDigit_eq_false_of_identStart (H : Host) (c : Char) (hc : isIdentStart H c = true) :
    isDigit c = false := by
  simp only [isIdentStart, Bool.or_eq_true, decide_eq_true_eq] at hc
  rcases hc with h | h
  · unfold isLetter at h
    split_ifs at h with h128
    · simp only [Bool.or_eq_true, Bool.and_eq_true, decide_eq_true_eq] at h
      simp only [isDigit, Bool.and_eq_false_iff, decide_eq_false_iff_not]
      omega
    · simp only [isDigit, Bool.and_eq_false_iff, decide_eq_false_iff_not]
      omega
  · subst h
    rfl

theorem ne_of_identStart (H : Host) (c d : Char) (hc : isIdentStart H c = true)
    (hd : isIdentStart H d = false) : c ≠ d := by
  intro h
  subst h
  rw [hd] at hc
  cases hc

theorem skipTrivia_identStart (H : Host) (c : Char) (rest : List Char)
    (hc : isIdentStart H c = true) : skipTrivia .normal (c :: rest) = .ok (c :: rest) := by
  have hsp : c ≠ ' ' := ne_of_identStart H c _ hc rfl
  have htab : c ≠ tab := ne_of_identStart H c _ hc rfl
  have hnl : c ≠ newline := ne_of_identStart H c _ hc rfl
  have hcr : c ≠ carriageReturn := ne_of_identStart H c _ hc rfl
  have hsl : c ≠ '/' := ne_of_identStart H c _ hc rfl
  have hw : isWhitespace c = false := by
    simp [isWhitespace, hsp, htab, hnl, hcr]
  unfold skipTrivia
  simp only [hw, hsl, if_false, Bool.false_eq_true]

theorem takeWhile_dropWhile_run {p : Char → Bool} (run rest : List Char)
    (hrun : ∀ d ∈ run, p d = true) (hrest : ∀ d ∈ rest.head?, p d = false) :
    (run ++ rest).takeWhile p = run ∧ (run ++ rest).dropWhile p = rest := by
  rw [List.takeWhile_append_of_pos hrun, List.dropWhile_append_of_pos hrun]
  cases rest with
  | nil => simp
  | cons d t =>
    have hd : p d = false := hrest d (by simp)
    simp [List.takeWhile_cons, List.dropWhile_cons, hd]

theorem NextToken_identifier (H : Host) (input : List Char) (c : Char) (run rest : List Char)
    (hskip : skipTrivia .normal input = .ok (c :: (run ++ rest)))
    (hc : isIdentStart H c = true)
    (hrun : ∀ d ∈ run, isIdentContinue H d = true)
    (hrest : ∀ d ∈ rest.head?, isIdentContinue H d = false) :
    NextToken H input = emit (classify (c :: run)) (c :: run) rest := by
  have hd := isDigit_eq_false_of_identStart H c hc
  have hq : c ≠ quote := ne_of_identStart H c _ hc rfl
  have hb : c ≠ backtick := ne_of_identStart H c _ hc rfl
  have ha : c ≠ apostrophe := ne_of_identStart H c _ hc rfl
  obtain ⟨htake, hdrop⟩ := takeWhile_dropWhile_run run rest hrun hrest
  unfold NextToken
  rw [hskip]
  simp only [hd, hq, hb, ha, hc, if_false, if_true, Bool.false_eq_true]
  unfold scanIdentifier
  simp only [htake, hdrop]

theorem tables_disjoint : ∀ w ∈ reservedWords, w ∉ builtinTypes := by
  decide

theorem classify_cases (text : List Char) :
    (classify text = .RESERVED ∨ classify text = .TYPE ∨ classify text = .IDENTIFIER) ∧
    (classify text = .RESERVED ↔ text ∈ reservedWords) ∧
    (classify text = .TYPE ↔ text ∈ builtinTypes) ∧
    (classify text = .IDENTIFIER ↔ text ∉ reservedWords ∧ text ∉ builtinTypes) := by
  unfold classify
  by_cases h1 : text ∈ reservedWords
  · have h2 : text ∉ builtinTypes := tables_disjoint text h1
    simp [h1, h2]
  · by_cases h2 : text ∈ builtinTypes
    · simp [h1, h2]
    · simp [h1, h2]

/-- C15: at a position reached after trivia where a maximal identifier-shaped run starts
(a letter or underscore, then letters, digits and underscores, then the end of the input
or a rune of another kind), `NextToken` returns, with no error, a token whose value is
the text of the run and whose type is one of `RESERVED`, `TYPE`, `IDENTIFIER`: `RESERVED`
exactly when the text is in the reserved-word table, `TYPE` exactly when it is in the
builtin-type table (bool, int, float, string, byte), `IDENTIFIER` exactly when it is in
neither; no word is in both tables. -/
theorem identifier_classification (H : Host) (input : List Char) (c : Char)
    (run rest : List Char)
    (hskip : skipTrivia .normal input = .ok (c :: (run ++ rest)))
    (hc : isIdentStart H c = true)
    (hrun : ∀ d ∈ run, isIdentContinue H d = true)
    (hrest : ∀ d ∈ rest.head?, isIdentContinue H d = false) :
    (∃ t, NextToken H input = emit t (c :: run) rest ∧
      (t = .RESERVED ∨ t = .TYPE ∨ t = .IDENTIFIER) ∧
      (t = .RESERVED ↔ c :: run ∈ reservedWords) ∧
      (t = .TYPE ↔ c :: run ∈ builtinTypes) ∧
      (t = .IDENTIFIER ↔ c :: run ∉ reservedWords ∧ c :: run ∉ builtinTypes)) ∧
    (∀ w ∈ reservedWords, w ∉ builtinTypes) ∧
    builtinTypes = ["bool", "int", "float", "string", "byte"].map String.toList :=
  ⟨⟨classify (c :: run), NextToken_identifier H input c run rest hskip hc hrun hrest,
      classify_cases (c :: run)⟩, tables_disjoint, rfl⟩

/-- Witness of C15: the run `var1` after two blanks and before ` x`. -/
theorem identifier_classification_witness :
    (skipTrivia .normal "  var1 x".toList = .ok ('v' :: ("ar1".toList ++ " x".toList)) ∧
      isIdentStart ⟨fun _ => false, fun _ => false, id⟩ 'v' = true ∧
      (∀ d ∈ "ar1".toList, isIdentContinue ⟨fun _ => false, fun _ => false, id⟩ d = true) ∧
      (∀ d ∈ " x".toList.head?,
        isIdentContinue ⟨fun _ => false, fun _ => false, id⟩ d = false)) ∧
    ∃ t, NextToken ⟨fun _ => false, fun _ => false, id⟩ "  var1 x".toList =
        emit t ('v' :: "ar1".toList) " x".toList ∧
      (t = .RESERVED ∨ t = .TYPE ∨ t = .IDENTIFIER) ∧
      (t = .RESERVED ↔ 'v' :: "ar1".toList ∈ reservedWords) ∧
      (t = .TYPE ↔ 'v' :: "ar1".toList ∈ builtinTypes) ∧
      (t = .IDENTIFIER ↔
        'v' :: "ar1".toList ∉ reservedWords ∧ 'v' :: "ar1".toList ∉ builtinTypes) :=
  ⟨⟨rfl, rfl, by decide, by
      intro d hd
      simp at hd
      subst hd
      rfl⟩,
    (identifier_classification ⟨fun _ => false, fun _ => false, id⟩ "  var1 x".toList 'v'
      "ar1".toList " x".toList rfl rfl (by decide) (by
        intro d hd
        simp at hd
        subst hd
        rfl)).1⟩

/-! ## Malformed numerals -/

theorem whitespace_cases (d : Char) (h : isWhitespace d = true) :
    d = ' ' ∨ d = tab ∨ d = newline ∨ d = carriageReturn := by
  simpa [isWhitespace, or_assoc] using h

theorem ne_of_pred {p : Char → Bool} {c d : Char} (hc : p c = true) (hd : p d = false) :
    c ≠ d := by
  intro h
  subst h
  rw [hd] at hc
  cases hc

theorem whitespace_stops (H : Host) (d : Char) (h : isWhitespace d = true) :
    isDigit d = false ∧ isHexDigit d = false ∧ isIdentContinue H d = false ∧
      isNumeralRune H d = false ∧ d ≠ '.' ∧ d ≠ 'x' ∧ d ≠ 'X' := by
  rcases whitespace_cases d h with h | h | h | h <;> subst h <;>
    exact ⟨rfl, rfl, rfl, rfl, by decide, by decide, by decide⟩

theorem isIdentContinue_of_isDigit (H : Host) (c : Char) (h : isDigit c = true) :
    isIdentContinue H c = true := by
  simp only [isDigit, Bool.and_eq_true, decide_eq_true_eq] at h
  have h128 : c.toNat < 128 := by omega
  simp only [isIdentContinue, isUnicodeDigit, isDigit, h128, if_true, Bool.or_eq_true,
    Bool.and_eq_true, decide_eq_true_eq]
  exact Or.inl (Or.inr h)

theorem isIdentContinue_of_isHexDigit (H : Host) (c : Char) (h : isHexDigit c = true) :
    isIdentContinue H c = true := by
  simp only [isHexDigit, isDigit, Bool.or_eq_true, Bool.and_eq_true, decide_eq_true_eq] at h
  have h128 : c.toNat < 128 := by omega
  simp only [isIdentContinue, isLetter, isUnicodeDigit, isDigit, h128, if_true, Bool.or_eq_true,
    Bool.and_eq_true, decide_eq_true_eq]
  rcases h with (h | h) | h
  · exact Or.inl (Or.inr h)
  · exact Or.inl (Or.inl (Or.inr ⟨by omega, by omega⟩))
  · exact Or.inl (Or.inl (Or.inl ⟨by omega, by omega⟩))

theorem split_run {p : Char → Bool} (l rest : List Char)
    (hstop : ∀ d ∈ rest.head?, p d = false) :
    (l ++ rest).takeWhile p = l.takeWhile p ∧
      (l ++ rest).dropWhile p = l.dropWhile p ++ rest := by
  induction l with
  | nil => simpa using takeWhile_dropWhile_run [] rest (by simp) hstop
  | cons a t ih =>
    by_cases ha : p a = true
    · simp [List.takeWhile_cons, List.dropWhile_cons, ha, ih]
    · simp [List.takeWhile_cons, List.dropWhile_cons, ha]

theorem dropWhile_all {p : Char → Bool} (l : List Char) :
    ∀ c ∈ l.dropWhile p, c ∈ l :=
  fun _ hc => (List.dropWhile_suffix p).subset hc

theorem scanFraction_run (H : Host) (pre : List Char) (isHex : Bool) (t rest : List Char)
    (ht : ∀ c ∈ t, isNumeralRune H c = true)
    (hrest : ∀ d ∈ rest.head?, isWhitespace d = true) :
    (∃ e, e ≠ LexError.EndOfInput ∧ scanFraction H pre isHex (t ++ rest) = failWith e rest) ∨
    (isHex = false ∧ t ≠ [] ∧ (∀ c ∈ t, isDigit c = true) ∧
      scanFraction H pre isHex (t ++ rest) =
        emit .FLOAT (H.renderFloat (pre ++ '.' :: t)) rest) := by
  have hstopD : ∀ d ∈ rest.head?, isDigit d = false :=
    fun d hd => (whitespace_stops H d (hrest d hd)).1
  have hstopR : ∀ d ∈ rest.head?, (fun c => decide (c = '.') || isIdentContinue H c) d = false :=
    fun d hd => (whitespace_stops H d (hrest d hd)).2.2.2.1
  have htR : ∀ c ∈ t, (fun c => decide (c = '.') || isIdentContinue H c) c = true := ht
  obtain ⟨htake, hdrop⟩ := split_run (p := isDigit) t rest hstopD
  unfold scanFraction
  simp only [htake, hdrop]
  by_cases hfrac : t.takeWhile isDigit = []
  · left
    rw [if_pos hfrac, (takeWhile_dropWhile_run t rest htR hstopR).2]
    exact ⟨.MalformedFloat, by decide, rfl⟩
  · rw [if_neg hfrac]
    cases hf2 : t.dropWhile isDigit with
    | nil =>
      have hall : ∀ c ∈ t, isDigit c = true := by
        have := List.dropWhile_eq_nil_iff.mp hf2
        simpa using this
      have htk : t.takeWhile isDigit = t := by
        have := List.takeWhile_append_dropWhile isDigit t
        rw [hf2, List.append_nil] at this
        exact this
      have hne : t ≠ [] := by
        intro h
        rw [h] at hfrac
        exact hfrac rfl
      have hhead : ((([] ++ rest).head?.map
          (fun c => decide (c = '.') || isIdentContinue H c)).getD false) = false := by
        cases rest with
        | nil => rfl
        | cons d r =>
          have := hstopR d (by simp)
          simpa using this
      rw [if_neg (by simpa using hhead)]
      cases isHex with
      | true =>
        left
        exact ⟨.MalformedFloat, by decide, by simp⟩
      | false =>
        right
        refine ⟨rfl, hne, hall, ?_⟩
        simp [htk]
    | cons c f3 =>
      left
      have hc : (fun c => decide (c = '.') || isIdentContinue H c) c = true :=
        htR c (dropWhile_all t c (by rw [hf2]; simp))
      have hf2R : ∀ a ∈ c :: f3, (fun c => decide (c = '.') || isIdentContinue H c) a = true :=
        fun a ha => htR a (dropWhile_all t a (by rw [hf2]; exact ha))
      have hhead : (((c :: f3 ++ rest).head?.map
          (fun c => decide (c = '.') || isIdentContinue H c)).getD false) = true := by
        simpa using hc
      rw [if_pos hhead, (takeWhile_dropWhile_run (c :: f3) rest hf2R hstopR).2]
      exact ⟨.MalformedFloat, by decide, rfl⟩

theorem scanHex_identRun (H : Host) (x : Char) (t rest : List Char)
    (ht : ∀ c ∈ t, isIdentContinue H c = true)
    (hrest : ∀ d ∈ rest.head?, isWhitespace d = true) :
    (∃ e, e ≠ LexError.EndOfInput ∧ scanHex H x (t ++ rest) = failWith e rest) ∨
    (t ≠ [] ∧ (∀ c ∈ t, isHexDigit c = true) ∧
      scanHex H x (t ++ rest) = emit .INTEGER ('0' :: x :: t) rest) := by
  have hstopX : ∀ d ∈ rest.head?, isHexDigit d = false :=
    fun d hd => (whitespace_stops H d (hrest d hd)).2.1
  have hstopI : ∀ d ∈ rest.head?, isIdentContinue H d = false :=
    fun d hd => (whitespace_stops H d (hrest d hd)).2.2.1
  obtain ⟨htake, hdrop⟩ := split_run (p := isHexDigit) t rest hstopX
  have hdropI : ∀ c ∈ t.dropWhile isHexDigit, isIdentContinue H c = true :=
    fun c hc => ht c (dropWhile_all t c hc)
  unfold scanHex
  simp only [htake, hdrop]
  by_cases hhex : t.takeWhile isHexDigit = []
  · left
    rw [if_pos hhex, (takeWhile_dropWhile_run _ rest hdropI hstopI).2]
    exact ⟨.InvalidHexLiteral, by decide, rfl⟩
  · rw [if_neg hhex]
    cases hh2 : t.dropWhile isHexDigit with
    | nil =>
      right
      have hall : ∀ c ∈ t, isHexDigit c = true := by
        have := List.dropWhile_eq_nil_iff.mp hh2
        simpa using this
      have htk : t.takeWhile isHexDigit = t := by
        have := List.takeWhile_append_dropWhile isHexDigit t
        rw [hh2, List.append_nil] at this
        exact this
      have hne : t ≠ [] := by
        intro h
        rw [h] at hhex
        exact hhex rfl
      refine ⟨hne, hall, ?_⟩
      rw [htk]
      cases rest with
      | nil => rfl
      | cons d r =>
        obtain ⟨_, _, hdI, _, hdot, _, _⟩ := whitespace_stops H d (hrest d (by simp))
        simp only [List.nil_append, hdI, hdot, if_false, Bool.false_eq_true]
    | cons c h3 =>
      left
      have hc : isIdentContinue H c = true := hdropI c (by rw [hh2]; simp)
      have hrun : ∀ a ∈ c :: h3, isIdentContinue H a = true :=
        fun a ha => hdropI a (by rw [hh2]; exact ha)
      simp only [List.cons_append, hc, if_true]
      rw [← List.cons_append, (takeWhile_dropWhile_run (c :: h3) rest hrun hstopI).2]
      exact ⟨.InvalidHexLiteral, by decide, rfl⟩

theorem scanHex_dotted (H : Host) (x : Char) (hs t rest : List Char)
    (hne : hs ≠ []) (hhs : ∀ c ∈ hs, isHexDigit c = true)
    (ht : ∀ c ∈ t, isNumeralRune H c = true)
    (hrest : ∀ d ∈ rest.head?, isWhitespace d = true) :
    ∃ e, e ≠ LexError.EndOfInput ∧
      scanHex H x (hs ++ '.' :: (t ++ rest)) = failWith e rest := by
  obtain ⟨htake, hdrop⟩ := takeWhile_dropWhile_run (p := isHexDigit) hs ('.' :: (t ++ rest)) hhs
    (by
      intro d hd
      simp at hd
      subst hd
      rfl)
  have hdotI : isIdentContinue H '.' = false := rfl
  unfold scanHex
  simp only [htake, hdrop, if_neg hne, hdotI, if_true, if_false, Bool.false_eq_true]
  rcases scanFraction_run H ('0' :: x :: hs) true t rest ht hrest with h | ⟨h, _⟩
  · exact h
  · cases h

theorem wellFormed_decimal (w : List Char) (hne : w ≠ []) (hall : ∀ c ∈ w, isDigit c = true)
    (hlz : (decide (1 < w.length) && decide (w.head? = some '0')) = false) :
    wellFormedNumeral w = true := by
  have h1 : (decide (w ≠ []) && w.all isDigit &&
      (decide (w.length = 1) || decide (w.head? ≠ some '0'))) = true := by
    simp only [Bool.and_eq_false_iff, decide_eq_false_iff_not, not_lt] at hlz
    simp only [Bool.and_eq_true, Bool.or_eq_true, decide_eq_true_eq, List.all_eq_true]
    refine ⟨⟨hne, hall⟩, ?_⟩
    rcases hlz with h | h
    · left
      have : 0 < w.length := List.length_pos.mpr hne
      omega
    · exact Or.inr h
  unfold wellFormedNumeral
  rw [h1]
  rfl

theorem wellFormed_hex (x : Char) (t : List Char) (hx : x = 'x' ∨ x = 'X') (hne : t ≠ [])
    (hall : ∀ c ∈ t, isHexDigit c = true) : wellFormedNumeral ('0' :: x :: t) = true := by
  have h2 : hexLiteral ('0' :: x :: t) = true := by
    simp only [hexLiteral, Bool.and_eq_true, Bool.or_eq_true, decide_eq_true_eq,
      List.all_eq_true]
    exact ⟨⟨⟨trivial, hx⟩, hne⟩, hall⟩
  unfold wellFormedNumeral
  rw [h2]
  simp

theorem wellFormed_float (ds t : List Char) (hds : ds ≠ [])
    (hdsall : ∀ c ∈ ds, isDigit c = true) (ht : t ≠ [])
    (htall : ∀ c ∈ t, isDigit c = true) : wellFormedNumeral (ds ++ '.' :: t) = true := by
  obtain ⟨htake, hdrop⟩ := takeWhile_dropWhile_run (p := isDigit) ds ('.' :: t) hdsall
    (by
      intro d hd
      simp at hd
      subst hd
      rfl)
  unfold wellFormedNumeral
  rw [htake, hdrop]
  have h3 : (decide (ds ≠ []) && decide (t ≠ []) && t.all isDigit) = true := by
    simp only [Bool.and_eq_true, decide_eq_true_eq, List.all_eq_true]
    exact ⟨⟨hds, ht⟩, htall⟩
  simp only [decide_True, Bool.true_and, h3, Bool.or_true]

theorem numeralRun_cases (H : Host) (w : List Char) (h : numeralRun H w = true) :
    (∃ d t, w = d :: t ∧ isDigit d = true ∧ ∀ c ∈ t, isIdentContinue H c = true) ∨
    (∃ ds t, w = ds ++ '.' :: t ∧ ds ≠ [] ∧ (∀ c ∈ ds, isDigit c = true) ∧
      ∀ c ∈ t, isNumeralRune H c = true) ∨
    (∃ x hs t, w = '0' :: x :: (hs ++ '.' :: t) ∧ (x = 'x' ∨ x = 'X') ∧ hs ≠ [] ∧
      (∀ c ∈ hs, isHexDigit c = true) ∧ ∀ c ∈ t, isNumeralRune H c = true) := by
  cases w with
  | nil => simp [numeralRun] at h
  | cons d t =>
    simp only [numeralRun, List.head?_cons, Option.map_some', Option.getD_some,
      Bool.and_eq_true, Bool.or_eq_true, List.all_eq_true] at h
    obtain ⟨hd, hA | ⟨hrun, hpre⟩⟩ := h
    · exact Or.inl ⟨d, t, rfl, hd, fun c hc => hA c (List.mem_cons_of_mem _ hc)⟩
    · have hsplit := List.takeWhile_append_dropWhile (fun c => decide (c ≠ '.')) (d :: t)
      cases hr : (d :: t).dropWhile (fun c => decide (c ≠ '.')) with
      | nil =>
        rw [hr, List.append_nil] at hsplit
        rw [hsplit] at hpre
        left
        refine ⟨d, t, rfl, hd, ?_⟩
        intro c hc
        rcases hpre with hdig | hhex
        · exact isIdentContinue_of_isDigit H c (hdig c (List.mem_cons_of_mem _ hc))
        · cases t with
          | nil => cases hc
          | cons x hs =>
            simp only [hexLiteral, Bool.and_eq_true, Bool.or_eq_true, decide_eq_true_eq,
              List.all_eq_true] at hhex
            obtain ⟨⟨⟨_, hx⟩, _⟩, hall⟩ := hhex
            rcases List.mem_cons.mp hc with h1 | h1
            · subst h1
              rcases hx with h2 | h2 <;> subst h2 <;> rfl
            · exact isIdentContinue_of_isHexDigit H c (hall c h1)
      | cons c r =>
        have hc : c = '.' := by
          have := List.head_dropWhile_not (fun c => decide (c ≠ '.')) (d :: t)
            (by rw [hr]; simp)
          simp only [hr, List.head_cons] at this
          simpa using this
        subst hc
        rw [hr] at hsplit
        have hr2 : ∀ a ∈ r, isNumeralRune H a = true := by
          intro a ha
          apply hrun a
          rw [← hsplit]
          simp [ha]
        right
        rcases hpre with hdig | hhex
        · left
          refine ⟨(d :: t).takeWhile (fun c => decide (c ≠ '.')), r, hsplit.symm, ?_, hdig, hr2⟩
          intro hnil
          rw [hnil] at hsplit
          simp only [List.nil_append, List.cons.injEq] at hsplit
          rw [← hsplit.1] at hd
          cases hd
        · right
          cases hs : (d :: t).takeWhile (fun c => decide (c ≠ '.')) with
          | nil =>
            rw [hs] at hhex
            cases hhex
          | cons z tl =>
            cases tl with
            | nil =>
              rw [hs] at hhex
              cases hhex
            | cons x hs' =>
              rw [hs] at hhex hsplit
              simp only [hexLiteral, Bool.and_eq_true, Bool.or_eq_true, decide_eq_true_eq,
                List.all_eq_true] at hhex
              obtain ⟨⟨⟨hz, hx⟩, hne⟩, hall⟩ := hhex
              subst hz
              exact ⟨x, hs', r, by rw [← hsplit]; simp, hx, hne, hall, hr2⟩

theorem scanNumber_identRun (H : Host) (d : Char) (t rest : List Char)
    (hd : isDigit d = true) (ht : ∀ c ∈ t, isIdentContinue H c = true)
    (hrest : ∀ d ∈ rest.head?, isWhitespace d = true)
    (hbad : wellFormedNumeral (d :: t) = false) :
    ∃ e, e ≠ LexError.EndOfInput ∧ scanNumber H (d :: t ++ rest) = failWith e rest := by
  have hstopD : ∀ a ∈ rest.head?, isDigit a = false :=
    fun a ha => (whitespace_stops H a (hrest a ha)).1
  have hstopI : ∀ a ∈ rest.head?, isIdentContinue H a = false :=
    fun a ha => (whitespace_stops H a (hrest a ha)).2.2.1
  have hw : ∀ c ∈ d :: t, isIdentContinue H c = true := by
    intro c hc
    rcases List.mem_cons.mp hc with h | h
    · subst h
      exact isIdentContinue_of_isDigit H c hd
    · exact ht c h
  obtain ⟨htake, hdrop⟩ := split_run (p := isDigit) (d :: t) rest hstopD
  have hds : (d :: t).takeWhile isDigit ≠ [] := by
    simp [List.takeWhile_cons, hd]
  have hsplit := List.takeWhile_append_dropWhile isDigit (d :: t)
  unfold scanNumber
  simp only [htake, hdrop]
  cases ht2 : (d :: t).dropWhile isDigit with
  | nil =>
    have hall : ∀ c ∈ d :: t, isDigit c = true := by
      have := List.dropWhile_eq_nil_iff.mp ht2
      simpa using this
    have htk : (d :: t).takeWhile isDigit = d :: t := by
      rw [ht2, List.append_nil] at hsplit
      exact hsplit
    rw [htk]
    have hlz : (decide (1 < (d :: t).length) && decide ((d :: t).head? = some '0')) = true := by
      by_contra hcon
      have := wellFormed_decimal (d :: t) (by simp) hall (by simpa using hcon)
      rw [hbad] at this
      cases this
    cases rest with
    | nil =>
      simp only [List.nil_append, hlz, if_true]
      exact ⟨.InvalidLeadingZero, by decide, rfl⟩
    | cons a r =>
      obtain ⟨_, _, haI, _, hdot, hx, hX⟩ := whitespace_stops H a (hrest a (by simp))
      have hdrop2 := (takeWhile_dropWhile_run (p := isIdentContinue H) [] (a :: r) (by simp)
        hstopI).2
      simp only [List.nil_append] at hdrop2 ⊢
      rw [if_neg (by simp [hx, hX]), if_pos ⟨hlz, hdot⟩, hdrop2]
      exact ⟨.InvalidLeadingZero, by decide, rfl⟩
  | cons c t3 =>
    have hmem : ∀ a ∈ c :: t3, a ∈ d :: t := by
      intro a ha
      rw [← ht2] at ha
      exact dropWhile_all _ a ha
    have hrun : ∀ a ∈ c :: t3, isIdentContinue H a = true := fun a ha => hw a (hmem a ha)
    have hc : isIdentContinue H c = true := hrun c (by simp)
    have hcdot : c ≠ '.' := ne_of_pred hc (rfl : isIdentContinue H '.' = false)
    have hdropI := (takeWhile_dropWhile_run (c :: t3) rest hrun hstopI).2
    simp only [List.cons_append] at hdropI ⊢
    by_cases hhex : (d :: t).takeWhile isDigit = ['0'] ∧ (c = 'x' ∨ c = 'X')
    · rw [if_pos hhex]
      rcases scanHex_identRun H c t3 rest (fun a ha => hrun a (List.mem_cons_of_mem _ ha)) hrest
        with h | ⟨hne, hall, _⟩
      · exact h
      · exfalso
        have hw' : d :: t = '0' :: c :: t3 := by
          rw [← hsplit, hhex.1, ht2]
          rfl
        have := wellFormed_hex c t3 hhex.2 hne hall
        rw [← hw', hbad] at this
        cases this
    · rw [if_neg hhex]
      by_cases hlz : (decide (1 < ((d :: t).takeWhile isDigit).length) &&
          decide (((d :: t).takeWhile isDigit).head? = some '0')) = true ∧ c ≠ '.'
      · rw [if_pos hlz, hdropI]
        exact ⟨.InvalidLeadingZero, by decide, rfl⟩
      · rw [if_neg hlz, if_neg hcdot, if_pos hc, hdropI]
        split_ifs
        · exact ⟨.UnsupportedNumericForm, by decide, rfl⟩
        · exact ⟨.InvalidNumericSuffix, by decide, rfl⟩

theorem scanNumber_decimalDotted (H : Host) (ds t rest : List Char)
    (hne : ds ≠ []) (hds : ∀ c ∈ ds, isDigit c = true)
    (ht : ∀ c ∈ t, isNumeralRune H c = true)
    (hrest : ∀ d ∈ rest.head?, isWhitespace d = true)
    (hbad : wellFormedNumeral (ds ++ '.' :: t) = false) :
    ∃ e, e ≠ LexError.EndOfInput ∧
      scanNumber H (ds ++ '.' :: (t ++ rest)) = failWith e rest := by
  obtain ⟨htake, hdrop⟩ := takeWhile_dropWhile_run (p := isDigit) ds ('.' :: (t ++ rest)) hds
    (by
      intro d hd
      simp at hd
      subst hd
      rfl)
  unfold scanNumber
  simp only [htake, hdrop]
  rw [if_neg (by simp), if_neg (by simp), if_pos trivial]
  rcases scanFraction_run H ds false t rest ht hrest with h | ⟨_, htne, htall, _⟩
  · exact h
  · exfalso
    have := wellFormed_float ds t hne hds htne htall
    rw [hbad] at this
    cases this

theorem scanNumber_hexDotted (H : Host) (x : Char) (hs t rest : List Char)
    (hx : x = 'x' ∨ x = 'X') (hne : hs ≠ []) (hhs : ∀ c ∈ hs, isHexDigit c = true)
    (ht : ∀ c ∈ t, isNumeralRune H c = true)
    (hrest : ∀ d ∈ rest.head?, isWhitespace d = true) :
    ∃ e, e ≠ LexError.EndOfInput ∧
      scanNumber H ('0' :: x :: (hs ++ '.' :: (t ++ rest))) = failWith e rest := by
  have hxd : isDigit x = false := by
    rcases hx with h | h <;> subst h <;> rfl
  have htake : ('0' :: x :: (hs ++ '.' :: (t ++ rest))).takeWhile isDigit = ['0'] := by
    rw [List.takeWhile_cons_of_pos (by rfl), List.takeWhile_cons_of_neg (by simp [hxd])]
  have hdrop : ('0' :: x :: (hs ++ '.' :: (t ++ rest))).dropWhile isDigit =
      x :: (hs ++ '.' :: (t ++ rest)) := by
    rw [List.dropWhile_cons_of_pos (by rfl), List.dropWhile_cons_of_neg (by simp [hxd])]
  unfold scanNumber
  simp only [htake, hdrop]
  rw [if_pos ⟨trivial, hx⟩]
  exact scanHex_dotted H x hs t rest hne hhs ht hrest

theorem skipTrivia_digit (d : Char) (rest : List Char) (hd : isDigit d = true) :
    skipTrivia .normal (d :: rest) = .ok (d :: rest) := by
  have hw : isWhitespace d = false := by
    have h1 : d ≠ ' ' := ne_of_pred hd rfl
    have h2 : d ≠ tab := ne_of_pred hd rfl
    have h3 : d ≠ newline := ne_of_pred hd rfl
    have h4 : d ≠ carriageReturn := ne_of_pred hd rfl
    simp [isWhitespace, h1, h2, h3, h4]
  have hsl : d ≠ '/' := ne_of_pred hd rfl
  unfold skipTrivia
  simp only [hw, hsl, if_false, Bool.false_eq_true]

theorem NextToken_digit (H : Host) (d : Char) (rest : List Char) (hd : isDigit d = true) :
    NextToken H (d :: rest) = scanNumber H (d :: rest) := by
  unfold NextToken
  rw [skipTrivia_digit d rest hd]
  simp only [hd, if_true]

theorem NextToken_numeralRun (H : Host) (w rest : List Char)
    (hw : numeralRun H w = true) (hbad : wellFormedNumeral w = false)
    (hrest : ∀ d ∈ rest.head?, isWhitespace d = true) :
    ∃ e, e ≠ LexError.EndOfInput ∧ NextToken H (w ++ rest) = failWith e rest := by
  rcases numeralRun_cases H w hw with ⟨d, t, rfl, hd, ht⟩ | ⟨ds, t, rfl, hne, hds, ht⟩ |
      ⟨x, hs, t, rfl, hx, hne, hhs, ht⟩
  · rw [List.cons_append, NextToken_digit H d _ hd, ← List.cons_append]
    exact scanNumber_identRun H d t rest hd ht hrest hbad
  · cases ds with
    | nil => exact absurd rfl hne
    | cons d ds' =>
      have hd : isDigit d = true := hds d (by simp)
      have hrw : (d :: ds' ++ '.' :: t) ++ rest = d :: (ds' ++ '.' :: (t ++ rest)) := by simp
      rw [hrw, NextToken_digit H d _ hd]
      have := scanNumber_decimalDotted H (d :: ds') t rest hne hds ht hrest hbad
      simpa using this
  · have hrw : ('0' :: x :: (hs ++ '.' :: t)) ++ rest = '0' :: x :: (hs ++ '.' :: (t ++ rest)) := by
      simp
    rw [hrw, NextToken_digit H '0' _ rfl]
    exact scanNumber_hexDotted H x hs t rest hx hne hhs ht hrest

theorem malformedNumerals_numeralRun (H : Host) :
    ∀ l ∈ malformedNumerals, numeralRun H l = true ∧ wellFormedNumeral l = false := by
  intro l hl
  simp only [malformedNumerals, List.map_cons, List.map_nil, List.mem_cons, List.mem_singleton,
    List.not_mem_nil, or_false] at hl
  rcases hl with h | h | h | h | h | h | h | h | h | h | h <;> subst h <;> exact ⟨rfl, rfl⟩

theorem NextToken_skip_whitespace (H : Host) (s : Char) (cursor : List Char)
    (hs : isWhitespace s = true) : NextToken H (s :: cursor) = NextToken H cursor := by
  have h : skipTrivia .normal (s :: cursor) = skipTrivia .normal cursor := by
    conv_lhs => unfold skipTrivia
    rw [if_pos hs]
  unfold NextToken
  rw [h]

theorem LexerActLoop_skip_whitespace (H : Host) (fuel : Nat) (s : Char) (cursor : List Char)
    (tokens : List Token) (errCount : Nat) (hs : isWhitespace s = true) :
    LexerActLoop H fuel (s :: cursor) tokens errCount =
      LexerActLoop H fuel cursor tokens errCount := by
  cases fuel with
  | zero => rfl
  | succ fuel =>
    unfold LexerActLoop
    rw [NextToken_skip_whitespace H s cursor hs]

theorem numeralRun_ne_nil (H : Host) (w : List Char) (hw : numeralRun H w = true) :
    w ≠ [] := by
  intro h
  subst h
  simp [numeralRun] at hw

theorem separated_length (w : List Char) (more : List (Char × List Char)) :
    w.length + more.length ≤ (separated w more).length := by
  unfold separated
  rw [List.length_append]
  have h : more.length ≤ (more.foldr (fun p acc => p.1 :: (p.2 ++ acc)) []).length := by
    induction more with
    | nil => simp
    | cons p t ih =>
      simp only [List.foldr_cons, List.length_cons, List.length_append]
      omega
  omega

theorem LexerActLoop_malformed (H : Host) (more : List (Char × List Char)) (w : List Char)
    (fuel : Nat) (tokens : List Token) (errCount : Nat)
    (hw : numeralRun H w = true) (hbad : wellFormedNumeral w = false)
    (hmore : ∀ p ∈ more, isWhitespace p.1 = true ∧ numeralRun H p.2 = true ∧
      wellFormedNumeral p.2 = false)
    (hfuel : more.length + 2 ≤ fuel) :
    LexerActLoop H fuel (separated w more) tokens errCount =
      some (tokens ++ List.replicate (more.length + 1) ⟨.NONE, []⟩,
        errCount + (more.length + 1)) := by
  induction more generalizing w fuel tokens errCount with
  | nil =>
    obtain ⟨e, he, hn⟩ := NextToken_numeralRun H w [] hw hbad (by simp)
    obtain ⟨f, rfl⟩ : ∃ f, fuel = f + 2 := ⟨fuel - 2, by simp at hfuel; omega⟩
    unfold separated
    simp only [List.foldr_nil]
    have hend : NextToken H [] = emit .EOF [] [] := rfl
    rw [LexerActLoop_error H _ _ _ _ e [] hn he, LexerActLoop_eof H _ _ _ _ hend]
    rfl
  | cons p t ih =>
    obtain ⟨hp1, hp2, hp3⟩ := hmore p (List.mem_cons_self _ _)
    have ht : ∀ q ∈ t, isWhitespace q.1 = true ∧ numeralRun H q.2 = true ∧
        wellFormedNumeral q.2 = false :=
      fun q hq => hmore q (List.mem_cons_of_mem _ hq)
    obtain ⟨e, he, hn⟩ := NextToken_numeralRun H w (p.1 :: separated p.2 t) hw hbad
      (by simpa using hp1)
    obtain ⟨f, rfl⟩ : ∃ f, fuel = f + 1 := ⟨fuel - 1, by simp at hfuel; omega⟩
    have hsep : separated w (p :: t) = w ++ p.1 :: separated p.2 t := rfl
    rw [hsep, LexerActLoop_error H _ _ _ _ e _ hn he,
      LexerActLoop_skip_whitespace H _ _ _ _ _ hp1,
      ih p.2 f _ _ hp2 hp3 ht (by simp at hfuel; omega)]
    simp only [List.length_cons, List.append_assoc, List.singleton_append,
      ← List.replicate_succ]
    congr 2
    omega

theorem wrong_number_judgment (H : Host) :
    LexerAct H wrongNumberText = some (List.replicate 11 ⟨.NONE, []⟩, 11) := by
  have h0 : NextToken H "// 非法数字\n// 非法整数\n123abc\n0XGHI\n0xghi\n0x123.456\n0x\n0X\n// 非法浮点数\n123.456.789\n\n// 不支持的科学计数法\n1e10\n\n// 不支持的八进制数\n0777\n\n// 不支持的二进制数\n0b1010\n\n// 错误前缀\n001\n".toList =
      failWith .InvalidNumericSuffix "\n0XGHI\n0xghi\n0x123.456\n0x\n0X\n// 非法浮点数\n123.456.789\n\n// 不支持的科学计数法\n1e10\n\n// 不支持的八进制数\n0777\n\n// 不支持的二进制数\n0b1010\n\n// 错误前缀\n001\n".toList := rfl
  have h1 : NextToken H "\n0XGHI\n0xghi\n0x123.456\n0x\n0X\n// 非法浮点数\n123.456.789\n\n// 不支持的科学计数法\n1e10\n\n// 不支持的八进制数\n0777\n\n// 不支持的二进制数\n0b1010\n\n// 错误前缀\n001\n".toList =
      failWith .InvalidHexLiteral "\n0xghi\n0x123.456\n0x\n0X\n// 非法浮点数\n123.456.789\n\n// 不支持的科学计数法\n1e10\n\n// 不支持的八进制数\n0777\n\n// 不支持的二进制数\n0b1010\n\n// 错误前缀\n001\n".toList := rfl
  have h2 : NextToken H "\n0xghi\n0x123.456\n0x\n0X\n// 非法浮点数\n123.456.789\n\n// 不支持的科学计数法\n1e10\n\n// 不支持的八进制数\n0777\n\n// 不支持的二进制数\n0b1010\n\n// 错误前缀\n001\n".toList =
      failWith .InvalidHexLiteral "\n0x123.456\n0x\n0X\n// 非法浮点数\n123.456.789\n\n// 不支持的科学计数法\n1e10\n\n// 不支持的八进制数\n0777\n\n// 不支持的二进制数\n0b1010\n\n// 错误前缀\n001\n".toList := rfl
  have h3 : NextToken H "\n0x123.456\n0x\n0X\n// 非法浮点数\n123.456.789\n\n// 不支持的科学计数法\n1e10\n\n// 不支持的八进制数\n0777\n\n// 不支持的二进制数\n0b1010\n\n// 错误前缀\n001\n".toList =
      failWith .MalformedFloat "\n0x\n0X\n// 非法浮点数\n123.456.789\n\n// 不支持的科学计数法\n1e10\n\n// 不支持的八进制数\n0777\n\n// 不支持的二进制数\n0b1010\n\n// 错误前缀\n001\n".toList := rfl
  have h4 : NextToken H "\n0x\n0X\n// 非法浮点数\n123.456.789\n\n// 不支持的科学计数法\n1e10\n\n// 不支持的八进制数\n0777\n\n// 不支持的二进制数\n0b1010\n\n// 错误前缀\n001\n".toList =
      failWith .InvalidHexLiteral "\n0X\n// 非法浮点数\n123.456.789\n\n// 不支持的科学计数法\n1e10\n\n// 不支持的八进制数\n0777\n\n// 不支持的二进制数\n0b1010\n\n// 错误前缀\n001\n".toList := rfl
  have h5 : NextToken H "\n0X\n// 非法浮点数\n123.456.789\n\n// 不支持的科学计数法\n1e10\n\n// 不支持的八进制数\n0777\n\n// 不支持的二进制数\n0b1010\n\n// 错误前缀\n001\n".toList =
      failWith .InvalidHexLiteral "\n// 非法浮点数\n123.456.789\n\n// 不支持的科学计数法\n1e10\n\n// 不支持的八进制数\n0777\n\n// 不支持的二进制数\n0b1010\n\n// 错误前缀\n001\n".toList := rfl
  have h6 : NextToken H "\n// 非法浮点数\n123.456.789\n\n// 不支持的科学计数法\n1e10\n\n// 不支持的八进制数\n0777\n\n// 不支持的二进制数\n0b1010\n\n// 错误前缀\n001\n".toList =
      failWith .MalformedFloat "\n\n// 不支持的科学计数法\n1e10\n\n// 不支持的八进制数\n0777\n\n// 不支持的二进制数\n0b1010\n\n// 错误前缀\n001\n".toList := rfl
  have h7 : NextToken H "\n\n// 不支持的科学计数法\n1e10\n\n// 不支持的八进制数\n0777\n\n// 不支持的二进制数\n0b1010\n\n// 错误前缀\n001\n".toList =
      failWith .UnsupportedNumericForm "\n\n// 不支持的八进制数\n0777\n\n// 不支持的二进制数\n0b1010\n\n// 错误前缀\n001\n".toList := rfl
  have h8 : NextToken H "\n\n// 不支持的八进制数\n0777\n\n// 不支持的二进制数\n0b1010\n\n// 错误前缀\n001\n".toList =
      failWith .InvalidLeadingZero "\n\n// 不支持的二进制数\n0b1010\n\n// 错误前缀\n001\n".toList := rfl
  have h9 : NextToken H "\n\n// 不支持的二进制数\n0b1010\n\n// 错误前缀\n001\n".toList =
      failWith .UnsupportedNumericForm "\n\n// 错误前缀\n001\n".toList := rfl
  have h10 : NextToken H "\n\n// 错误前缀\n001\n".toList =
      failWith .InvalidLeadingZero "\n".toList := rfl
  have hend : NextToken H "\n".toList = emit .EOF [] [] := rfl
  show LexerActLoop H 143 "// 非法数字\n// 非法整数\n123abc\n0XGHI\n0xghi\n0x123.456\n0x\n0X\n// 非法浮点数\n123.456.789\n\n// 不支持的科学计数法\n1e10\n\n// 不支持的八进制数\n0777\n\n// 不支持的二进制数\n0b1010\n\n// 错误前缀\n001\n".toList [] 0 = _
  rw [LexerActLoop_error H _ _ _ _ _ _ h0 (by decide),
    LexerActLoop_error H _ _ _ _ _ _ h1 (by decide),
    LexerActLoop_error H _ _ _ _ _ _ h2 (by decide),
    LexerActLoop_error H _ _ _ _ _ _ h3 (by decide),
    LexerActLoop_error H _ _ _ _ _ _ h4 (by decide),
    LexerActLoop_error H _ _ _ _ _ _ h5 (by decide),
    LexerActLoop_error H _ _ _ _ _ _ h6 (by decide),
    LexerActLoop_error H _ _ _ _ _ _ h7 (by decide),
    LexerActLoop_error H _ _ _ _ _ _ h8 (by decide),
    LexerActLoop_error H _ _ _ _ _ _ h9 (by decide),
    LexerActLoop_error H _ _ _ _ _ _ h10 (by decide),
    LexerActLoop_eof H _ _ _ _ hend]
  rfl

/-- C14, as stated, fails for a malformed numeral in which `.` follows a part already in
error: on the run `0XGHI.1`, which is not a well-formed numeral, `NextToken` returns one
error but leaves `.1` behind, and `LexerAct` then collects the delimiter `.` and the
`INTEGER` token `1`. -/
theorem malformed_numerals_counterexample :
    wellFormedNumeral "0XGHI.1".toList = false ∧
    NextToken ⟨fun _ => false, fun _ => false, id⟩ "0XGHI.1".toList =
      failWith .InvalidHexLiteral ".1".toList ∧
    (¬ ∃ e, NextToken ⟨fun _ => false, fun _ => false, id⟩ "0XGHI.1".toList = failWith e []) ∧
    LexerAct ⟨fun _ => false, fun _ => false, id⟩ "0XGHI.1".toList =
      some ([⟨.NONE, []⟩, ⟨.DELIMITER, ".".toList⟩, ⟨.INTEGER, "1".toList⟩], 1) := by
  have h0 : NextToken ⟨fun _ => false, fun _ => false, id⟩ "0XGHI.1".toList =
      failWith .InvalidHexLiteral ".1".toList := rfl
  have h1 : NextToken ⟨fun _ => false, fun _ => false, id⟩ ".1".toList =
      emit .DELIMITER ".".toList "1".toList := rfl
  have h2 : NextToken ⟨fun _ => false, fun _ => false, id⟩ "1".toList =
      emit .INTEGER "1".toList [] := rfl
  have hend : NextToken ⟨fun _ => false, fun _ => false, id⟩ [] = emit .EOF [] [] := rfl
  refine ⟨rfl, h0, ?_, ?_⟩
  · rintro ⟨e, he⟩
    rw [h0] at he
    have := congrArg Result.rest he
    simp [failWith] at this
  · show LexerActLoop _ 8 "0XGHI.1".toList [] 0 = _
    rw [LexerActLoop_error _ _ _ _ _ _ _ h0 (by decide),
      LexerActLoop_token _ _ _ _ _ _ _ _ h1 (by decide),
      LexerActLoop_token _ _ _ _ _ _ _ _ h2 (by decide),
      LexerActLoop_eof _ _ _ _ _ hend]
    rfl

/-- C14, amended: each malformed numeral run, followed by whitespace or by the end of the
input, makes `NextToken` return one lexical error, with the zero token, and leaves the
cursor right after the lexeme, where a numeral run starts with a decimal digit and either
is made of identifier-continue runes only, or is made of `.` and identifier-continue runes
and has only decimal digits, or a hex literal, before its first `.`, and it is malformed
when it is not a well-formed numeral; a text of `k` such lexemes separated by whitespace
runes gives `LexerAct` exactly `k` errors and `k` zero tokens, hence no `INTEGER` or
`FLOAT` token; `123abc`, `0XGHI`, `0xghi`, `0x123.456`, `0x`, `0X`, `123.456.789`,
`1e10`, `0777`, `0b1010` and `001` are such lexemes, and the text of the test "Wrong
Number Judgment" gives 11 errors. -/
theorem malformed_numerals_atomic (H : Host) (w : List Char) (more : List (Char × List Char))
    (rest : List Char)
    (hw : numeralRun H w = true) (hbad : wellFormedNumeral w = false)
    (hrest : ∀ d ∈ rest.head?, isWhitespace d = true)
    (hmore : ∀ p ∈ more, isWhitespace p.1 = true ∧ numeralRun H p.2 = true ∧
      wellFormedNumeral p.2 = false) :
    (∃ e, e ≠ LexError.EndOfInput ∧ NextToken H (w ++ rest) = failWith e rest) ∧
    LexerAct H (separated w more) =
      some (List.replicate (more.length + 1) ⟨.NONE, []⟩, more.length + 1) ∧
    (∀ l ∈ malformedNumerals, numeralRun H l = true ∧ wellFormedNumeral l = false) ∧
    LexerAct H wrongNumberText = some (List.replicate 11 ⟨.NONE, []⟩, 11) := by
  refine ⟨NextToken_numeralRun H w rest hw hbad hrest, ?_, malformedNumerals_numeralRun H,
    wrong_number_judgment H⟩
  have hlen := separated_length w more
  have hne : 1 ≤ w.length := List.length_pos.mpr (numeralRun_ne_nil H w hw)
  unfold LexerAct
  rw [LexerActLoop_malformed H more w _ [] 0 hw hbad hmore (by omega)]
  simp

/-- Witness of C14 (amended): `0x1F.2` before ` x`, and the text `0x1F.2 9z_`. -/
theorem malformed_numerals_atomic_witness :
    (numeralRun ⟨fun _ => false, fun _ => false, id⟩ "0x1F.2".toList = true ∧
      wellFormedNumeral "0x1F.2".toList = false ∧
      (∀ d ∈ " x".toList.head?, isWhitespace d = true) ∧
      (∀ p ∈ [(' ', "9z_".toList)], isWhitespace p.1 = true ∧
        numeralRun ⟨fun _ => false, fun _ => false, id⟩ p.2 = true ∧
        wellFormedNumeral p.2 = false)) ∧
    (∃ e, e ≠ LexError.EndOfInput ∧
      NextToken ⟨fun _ => false, fun _ => false, id⟩ ("0x1F.2".toList ++ " x".toList) =
        failWith e " x".toList) ∧
    LexerAct ⟨fun _ => false, fun _ => false, id⟩
        (separated "0x1F.2".toList [(' ', "9z_".toList)]) =
      some (List.replicate ([(' ', "9z_".toList)].length + 1) ⟨.NONE, []⟩,
        [(' ', "9z_".toList)].length + 1) :=
  ⟨⟨rfl, rfl, by decide, by decide⟩,
    (malformed_numerals_atomic ⟨fun _ => false, fun _ => false, id⟩ "0x1F.2".toList
      [(' ', "9z_".toList)] " x".toList rfl rfl (by decide) (by decide)).1,
    (malformed_numerals_atomic ⟨fun _ => false, fun _ => false, id⟩ "0x1F.2".toList
      [(' ', "9z_".toList)] " x".toList rfl rfl (by decide) (by decide)).2.1⟩

end Lexer
